import Mathlib

/-!
Verification development for the `sps` spreadsheet processor (`src/sps.c`).

The C program is shallowly embedded: byte strings become `List Char`
(C strings are NUL-terminated, so the embedding assumes no interior NUL
byte; theorems that quantify over file contents carry that hypothesis),
`long long int` selector coordinates become `Int`, and `long double`
values become the exact fraction type `LD` below (kept unnormalized so
that every operation is a structural computation).  Fallible C functions
returning an `ErrorCodes` value are modelled as functions returning the
code together with their outputs.
-/

namespace Sps

/-- Error codes of `enum ErrorCodes` that the modelled functions use. -/
def NO_ERROR : Int := 0

def ALLOCATION_FAILED : Int := 4

def FUNCTION_ERROR : Int := 5

def FUNCTION_ARGUMENT_ERROR : Int := 6

def COMMAND_ERROR : Int := 8

def SELECTOR_ERROR : Int := 9

/-! ## Component A: the quoting-aware scanner (`count_char`,
`get_position_of_character`, `get_substring`) -/

/-- Quote-tracking state shared by the scanner loops: `inSingle` is the C
local `in_parentecies` (inside `'…'`), `inDouble` is `in_double_parentecies`
(inside `"…"`). -/
structure QState where
  inSingle : Bool
  inDouble : Bool
deriving DecidableEq

/-- Both flags start false at the beginning of every scan. -/
def qsInit : QState := ⟨false, false⟩

/-- One character step of the quote state.  Mirrors the loop bodies of
`count_char` / `get_position_of_character` / `normalize_delims`: the
double-quote toggle is evaluated first (guarded by the old single-quote
state), then the single-quote toggle (guarded by the *new* double-quote
state). -/
def qsNext (q : QState) (cc : Char) : QState :=
  let d := if !q.inSingle && cc == '"' then !q.inDouble else q.inDouble
  let s := if !d && cc == '\'' then !q.inSingle else q.inSingle
  ⟨s, d⟩

/-- The occurrence test of the scanner loops at byte index `i`, where `prev`
is the preceding byte (`none` at index 0) and `q'` the quote state *after*
the toggles for the current byte `cc`.  Mirrors
`ignore_escapes || (!in_parentecies && !in_double_parentecies && (i != 0 && string[i-1] != '\\'))`. -/
def occCounts (q' : QState) (ig : Bool) (i : Nat) (prev : Option Char) : Bool :=
  ig || (!q'.inSingle && !q'.inDouble && (i != 0 && prev != some '\\'))

/-- The scan underlying `count_char` and `get_position_of_character`: the
ascending list of byte indices at which an occurrence of `c` is counted.
`i` is the index of the first byte of the remaining list, `q` the quote
state before it, `prev` the byte preceding it. -/
def scanAux (c : Char) (ig : Bool) : List Char → Nat → QState → Option Char → List Nat
  | [], _, _, _ => []
  | cc :: rest, i, q, prev =>
    let q' := qsNext q cc
    (if cc == c && occCounts q' ig i prev then [i] else [])
      ++ scanAux c ig rest (i + 1) q' (some cc)

/-- Indices of the counted occurrences of `c` in `s`. -/
def countedPositions (s : List Char) (c : Char) (ig : Bool) : List Nat :=
  scanAux c ig s 0 qsInit none

/-- `count_char` (src/sps.c:444): the counter of the C loop is exactly the
number of counted occurrences. -/
def count_char (s : List Char) (c : Char) (ig : Bool) : Nat :=
  (countedPositions s c ig).length

/-- `get_position_of_character` (src/sps.c:490): byte offset of the
`idx`-th (0-based) counted occurrence of `c`, or `-1` when there is none. -/
def get_position_of_character (s : List Char) (c : Char) (idx : Nat) (ig : Bool) : Int :=
  match (countedPositions s c ig).get? idx with
  | some p => (p : Int)
  | none => -1

/-- Slice `s[start … stop-1]` (stop exclusive), as the copy loop of
`get_substring` produces it. -/
def slice (s : List Char) (start stop : Nat) : List Char :=
  (s.drop start).take (stop - start)

/-- The segment selected by `get_substring` for the position list `ps`:
`start_index = (idx == 0) ? 0 : pos(idx-1)+1` and
`end_index = (idx >= count) ? len-1 : pos(idx)-1` (the exclusive `stop`
below is `end_index + 1`). -/
def sliceSeg (s : List Char) (ps : List Nat) (idx : Nat) : List Char :=
  let start := if idx = 0 then 0 else ps.getD (idx - 1) 0 + 1
  let stop := if ps.length ≤ idx then s.length else ps.getD idx 0
  slice s start stop

/-- The substring part of `get_substring` (src/sps.c:554). -/
def get_substring_seg (s : List Char) (c : Char) (idx : Nat) (ig : Bool) : List Char :=
  sliceSeg s (countedPositions s c ig) idx

/-- The `rest` output of `get_substring` when called with `index = 0` and
`want_rest = true`: everything after the first counted occurrence.  When
there is no counted occurrence the computed `rest_len` is 0 and the C
function leaves `rest` as the null pointer, modelled as `none`. -/
def get_substring_rest (s : List Char) (c : Char) (ig : Bool) : Option (List Char) :=
  match (countedPositions s c ig).head? with
  | some p => some (s.drop (p + 1))
  | none => none

/-! ## String helpers (`trim_se`, `trim_start`, `strings_equal`,
`string_start_with`, `string_end_with`, `rm_newline_chars`) -/

/-- `trim_se` (src/sps.c:152): drop the first and the last byte; strings of
length ≤ 1 become empty. -/
def trim_se (s : List Char) : List Char :=
  if 1 < s.length then (s.drop 1).dropLast else []

/-- `trim_start` (src/sps.c:176): drop the first byte. -/
def trim_start (s : List Char) : List Char :=
  s.drop 1

/-- `strings_equal` (src/sps.c:261) on possibly-null C strings. -/
def strings_equal : Option (List Char) → Option (List Char) → Bool
  | none, none => true
  | none, some _ => false
  | some _, none => false
  | some a, some b => a == b

/-- `string_start_with` (src/sps.c:242): `strncmp` over the first
`strlen(start_string)` bytes, after the length guard. -/
def string_start_with (base start : List Char) : Bool :=
  if base.length < start.length then false else base.take start.length == start

/-- Index of the last occurrence of `c` in `s` (the `strrchr` pointer). -/
def strrchr_idx (s : List Char) (c : Char) : Option Nat :=
  match s.reverse.findIdx? (· == c) with
  | some k => some (s.length - 1 - k)
  | none => none

/-- `string_end_with` (src/sps.c:223): find the last occurrence of the
first byte of `e` in `base` and compare the suffix from there with `e`.
(For the empty `e`, `strrchr` finds the NUL terminator and the compare
succeeds.) -/
def string_end_with (base e : List Char) : Bool :=
  match e with
  | [] => true
  | c :: _ =>
    match strrchr_idx base c with
    | some i => base.drop i == e
    | none => false

/-- `rm_newline_chars` (src/sps.c:537): truncate at the first `\n` or `\r`
(everything after it is removed). -/
def rm_newline_chars (s : List Char) : List Char :=
  s.takeWhile (fun ch => !(ch == '\n' || ch == '\r'))

/-! ## `long double` model

`LD` is an exact fraction with integer numerator and natural denominator.
It is deliberately *not* normalized (no gcd), so that every operation is a
plain structural computation the kernel can evaluate.  All values built by
the model have a positive denominator.  This models the exact arithmetic
the claims exercise; binary rounding of the C `long double` type is not
modelled (the settled claims never depend on it). -/

structure LD where
  num : Int
  den : Nat
deriving DecidableEq

/-- The long-double literal `1.0`. -/
def LD.one : LD := ⟨1, 1⟩

def LD.add (a b : LD) : LD := ⟨a.num * b.den + b.num * a.den, a.den * b.den⟩

def LD.neg (a : LD) : LD := ⟨-a.num, a.den⟩

/-- Division by a (positive) natural count, as in `avg_cells`. -/
def LD.divNat (a : LD) (k : Nat) : LD := ⟨a.num, a.den * k⟩

def LD.mulPow10 (a : LD) (k : Nat) : LD := ⟨a.num * (10 : Int) ^ k, a.den⟩

def LD.divPow10 (a : LD) (k : Nat) : LD := ⟨a.num, a.den * 10 ^ k⟩

/-- Strict `<` on long doubles, by cross multiplication (valid because all
model values have positive denominators). -/
def LD.blt (a b : LD) : Bool := a.num * (b.den : Int) < b.num * (a.den : Int)

/-- `≤` on long doubles, by cross multiplication. -/
def LD.ble (a b : LD) : Bool := a.num * (b.den : Int) ≤ b.num * (a.den : Int)

/-- `⌊a⌋`. -/
def LD.floorI (a : LD) : Int := Int.fdiv a.num a.den

/-- `(long int)(a)`: C truncation toward zero. -/
def LD.truncI (a : LD) : Int := Int.tdiv a.num a.den

def LD.abs (a : LD) : LD := ⟨(a.num.natAbs : Int), a.den⟩

/-- Reciprocal of a positive value. -/
def LD.inv (a : LD) : LD := ⟨(a.den : Int), a.num.natAbs⟩

/-- Rational interpretation of a model value, for statement-level
reasoning. -/
def LD.toRat (a : LD) : ℚ := (a.num : ℚ) / (a.den : ℚ)

/-- Stand-in for `LDBL_MAX`; the theorems never compare against it, so the
exact magnitude is immaterial (it only has to be a positive constant, as
`selector_min` / `selector_max` use `±LDBL_MAX` as initial accumulator). -/
def LDBL_MAX_LD : LD := ⟨10 ^ 4932, 1⟩

/-- `is_ldouble_lint` (src/sps.c:321): `(long int)(val) == val`. -/
def is_ldouble_lint (v : LD) : Bool := LD.truncI v * (v.den : Int) == v.num

/-! ## Numeric parsing (`strtoll` / `strtold` and their wrappers)

`strtoll` and `strtold` are C library functions; they are modelled on
their standard decimal forms: optional white space, optional sign, then
digits (for `strtold` also an optional fraction and an optional decimal
exponent).  The hexadecimal / infinity / nan forms of `strtold` are not
modelled; no settled claim depends on them.  Each parser returns the value
together with the number of consumed bytes (`endptr - nptr`), which is `0`
when no conversion could be performed. -/

def isSpaceB (c : Char) : Bool :=
  c == ' ' || c == '\t' || c == '\n' || c == Char.ofNat 11 || c == Char.ofNat 12 || c == '\r'

def isDigitB (c : Char) : Bool := '0' ≤ c && c ≤ '9'

def digVal (c : Char) : Nat := c.toNat - 48

/-- Consume a maximal run of decimal digits, extending the accumulator;
returns the value, the number of digits consumed, and the rest. -/
def takeDigitsAcc : List Char → Nat → Nat × Nat × List Char
  | [], acc => (acc, 0, [])
  | c :: rest, acc =>
    if isDigitB c then
      let r := takeDigitsAcc rest (acc * 10 + digVal c)
      (r.1, r.2.1 + 1, r.2.2)
    else (acc, 0, c :: rest)

/-- Split an optional sign: (is-negative, consumed, rest). -/
def takeSign : List Char → Bool × Nat × List Char
  | '-' :: r => (true, 1, r)
  | '+' :: r => (false, 1, r)
  | r => (false, 0, r)

/-- Decimal `strtold`: value and number of consumed bytes. -/
def strtold (s : List Char) : LD × Nat :=
  let ws := (s.takeWhile isSpaceB).length
  let sg := takeSign (s.drop ws)
  let ip := takeDigitsAcc sg.2.2 0
  let fr : Nat × Nat × Nat × List Char :=
    match ip.2.2 with
    | '.' :: r =>
      let fd := takeDigitsAcc r 0
      (fd.1, fd.2.1, fd.2.1 + 1, fd.2.2)
    | r => (0, 0, 0, r)
  if ip.2.1 + fr.2.1 = 0 then (⟨0, 1⟩, 0)
  else
    let mag : LD := ⟨((ip.1 * 10 ^ fr.2.1 + fr.1 : Nat) : Int), 10 ^ fr.2.1⟩
    let ex : Bool × Nat × Nat :=
      match fr.2.2.2 with
      | e :: r =>
        if e == 'e' || e == 'E' then
          let es := takeSign r
          let ed := takeDigitsAcc es.2.2 0
          if ed.2.1 = 0 then (false, 0, 0) else (es.1, ed.1, 1 + es.2.1 + ed.2.1)
        else (false, 0, 0)
      | [] => (false, 0, 0)
    let mag2 := if ex.1 then LD.divPow10 mag ex.2.1 else LD.mulPow10 mag ex.2.1
    let v := if sg.1 then LD.neg mag2 else mag2
    (v, ws + sg.2.1 + ip.2.1 + fr.2.2.1 + ex.2.2)

/-- Decimal `strtoll` (base 10): value and number of consumed bytes. -/
def strtoll (s : List Char) : Int × Nat :=
  let ws := (s.takeWhile isSpaceB).length
  let sg := takeSign (s.drop ws)
  let d := takeDigitsAcc sg.2.2 0
  if d.2.1 = 0 then (0, 0)
  else ((if sg.1 then -(d.1 : Int) else (d.1 : Int)), ws + sg.2.1 + d.2.1)

/-- `is_string_llint` (src/sps.c:281): `strtoll` must consume the whole
string (so the empty string is accepted, with value 0). -/
def is_string_llint (s : List Char) : Bool := (strtoll s).2 == s.length

/-- `is_string_ldouble` (src/sps.c:301): `strtold` must consume the whole
string (so the empty string is accepted, with value 0). -/
def is_string_ldouble (s : List Char) : Bool := (strtold s).2 == s.length

/-- The value delivered by `string_to_llint` (src/sps.c:334). -/
def string_to_llint (s : List Char) : Int := (strtoll s).1

/-- The value delivered by `string_to_ldouble` (src/sps.c:357). -/
def string_to_ldouble_val (s : List Char) : LD := (strtold s).1

/-! ## Numeric formatting (`lint_to_string` = `%li`,
`ldouble_to_string` = `%Lg`) -/

def digitChar (d : Nat) : Char := Char.ofNat (48 + d)

def natToDecAux : Nat → Nat → List Char
  | 0, _ => []
  | f + 1, n => if n = 0 then [] else natToDecAux f (n / 10) ++ [digitChar (n % 10)]

/-- Decimal digits of a natural number (most significant first). -/
def natToDec (n : Nat) : List Char := if n = 0 then ['0'] else natToDecAux n n

/-- `lint_to_string` (src/sps.c:412): `snprintf("%li", value)`. -/
def lint_to_string (v : Int) : List Char :=
  if v < 0 then '-' :: natToDec v.natAbs else natToDec v.natAbs

def natLog10Aux : Nat → Nat → Nat
  | 0, _ => 0
  | f + 1, n => if n < 10 then 0 else natLog10Aux f (n / 10) + 1

/-- `⌊log₁₀ n⌋` for `n ≥ 1` (and 0 for `n = 0`). -/
def natLog10 (n : Nat) : Nat := natLog10Aux n n

/-- Decimal exponent of a positive value: the unique `e` with
`10^e ≤ x < 10^(e+1)`. -/
def decExp (x : LD) : Int :=
  if LD.ble LD.one x then (natLog10 (LD.floorI x).toNat : Int)
  else
    let k := natLog10 (LD.floorI (LD.inv x)).toNat
    if LD.ble ⟨1, 10 ^ k⟩ x then -(k : Int) else -((k : Int) + 1)

/-- Round to the nearest integer, ties to even (the correct rounding
`printf` applies to the exactly-representable values the claims use). -/
def roundHalfEven (x : LD) : Int :=
  let f := LD.floorI x
  let r2 := 2 * (x.num - f * (x.den : Int))
  if r2 < (x.den : Int) then f
  else if (x.den : Int) < r2 then f + 1
  else if f % 2 = 0 then f else f + 1

/-- Mantissa/exponent of a positive value rounded to 6 significant decimal
digits (the `%g` default precision): returns `(M, e)` with the rounded
value `M·10^(e-5)` and `10^5 ≤ M < 10^6`. -/
def sig6 (x : LD) : Int × Int :=
  let e := decExp x
  let scaled := if e ≤ 5 then LD.mulPow10 x (5 - e).toNat else LD.divPow10 x (e - 5).toNat
  let M := roundHalfEven scaled
  if 10 ^ 6 ≤ M then (Int.tdiv M 10, e + 1) else (M, e)

/-- Strip trailing `'0'` digits (the `%g` zero stripping). -/
def stripZeros (ds : List Char) : List Char :=
  (ds.reverse.dropWhile (· == '0')).reverse

/-- The `e±XX` exponent suffix of `%g` scientific notation (at least two
exponent digits). -/
def fmtExp (e : Int) : List Char :=
  'e' :: (if e < 0 then '-' else '+') ::
    (if e.natAbs < 10 then '0' :: natToDec e.natAbs else natToDec e.natAbs)

/-- `%g` rendering of a positive value with mantissa digits `M` and
decimal exponent `e`: scientific style when `e < -4` or `e ≥ 6`, fixed
style otherwise, trailing zeros (and a bare decimal point) stripped. -/
def fmtGPos (M : Int) (e : Int) : List Char :=
  let digs := natToDec M.toNat
  if e < -4 || 6 ≤ e then
    match digs with
    | d :: rest =>
      let fp := stripZeros rest
      (if fp = [] then [d] else d :: '.' :: fp) ++ fmtExp e
    | [] => fmtExp e
  else if 0 ≤ e then
    let ip := digs.take (e.toNat + 1)
    let fp := stripZeros (digs.drop (e.toNat + 1))
    if fp = [] then ip else ip ++ '.' :: fp
  else
    '0' :: '.' :: (List.replicate (-(e + 1)).toNat '0' ++ stripZeros digs)

/-- `ldouble_to_string` (src/sps.c:380): `snprintf("%Lg", value)`. -/
def ldouble_to_string (v : LD) : List Char :=
  if v.num = 0 then ['0']
  else
    let me := sig6 (LD.abs v)
    if v.num < 0 then '-' :: fmtGPos me.1 me.2 else fmtGPos me.1 me.2

/-- The cell-writing loop of `save_table` / `print_table`: contents joined
by the single output delimiter (`fprintf` of the content, then the
delimiter whenever another cell follows). -/
def joinCells (d : Char) : List (List Char) → List Char
  | [] => []
  | [x] => x
  | x :: xs => x ++ d :: joinCells d xs

/-- Peeling `s` at an ascending list of cut positions: the segment before
the first cut, then recursively the segments of the remainder. -/
def segsOf (s : List Char) : List Nat → List (List Char)
  | [] => [s]
  | p :: ps => s.take p :: segsOf (s.drop (p + 1)) (ps.map (· - (p + 1)))
termination_by ps => ps.length
decreasing_by simp

/-! ## Table model

A cell is its content string (never null in a live table), a row a list
of cells, the table a list of rows; the output delimiter (`table->delim`)
is passed separately where needed.  Allocation bookkeeping
(`allocated_rows` / `allocated_cells` / `allocated_chars`) is not
observable and not modelled; the allocator is assumed to succeed except
in the explicitly budgeted model of `swap_cells` below. -/

abbrev TableRows := List (List (List Char))

/-- `table->num_of_rows`. -/
def nrows (t : TableRows) : Nat := t.length

/-- `table->rows[0].num_of_cells` (0 for an empty table). -/
def ncols0 (t : TableRows) : Nat := (t.headD []).length

/-- `table->rows[i]` for a (non-negative, in-range) index. -/
def rowAt (t : TableRows) (i : Int) : List (List Char) := t.getD i.toNat []

/-- `table->rows[i].cells[j].content`. -/
def contentAt (t : TableRows) (i j : Int) : List Char := (rowAt t i).getD j.toNat []

/-- `set_cell` (src/sps.c:1325) at position `(i, j)`: replace the content
(the growth of the backing buffer is not observable). -/
def updCell (t : TableRows) (i j : Int) (v : List Char) : TableRows :=
  t.set i.toNat ((rowAt t i).set j.toNat v)

/-- The integer interval `a, a+1, …, b` (empty when `b < a`), used to
model the clamped `for` loops over a selection. -/
def intRange (a b : Int) : List Int :=
  (List.range (b + 1 - a).toNat).map (fun k => a + (k : Int))

/-- Row indices visited by `for (i = lld_ir1; i <= lld_ir2 && i < num_of_rows; i++)`. -/
def selRows (t : TableRows) (sel_ir1 sel_ir2 : Int) : List Int :=
  intRange sel_ir1 (min sel_ir2 ((nrows t : Int) - 1))

/-- Column indices visited in row `i` by
`for (j = lld_ic1; j <= lld_ic2 && j < rows[i].num_of_cells; j++)`. -/
def selColsInRow (t : TableRows) (sel_ic1 sel_ic2 : Int) (i : Int) : List Int :=
  intRange sel_ic1 (min sel_ic2 (((rowAt t i).length : Int) - 1))

/-! ## Selector state -/

/-- `Raw_selector` (src/sps.c:79).  The C field `initialized` is called
`inited` here. -/
structure Raw_selector where
  lld_ir1 : Int
  lld_ic1 : Int
  lld_ir2 : Int
  lld_ic2 : Int
  inited : Bool
deriving DecidableEq

/-- `init_selector` (src/sps.c:1811). -/
def init_selector : Raw_selector :=
  { lld_ir1 := 0, lld_ic1 := 0, lld_ir2 := 0, lld_ic2 := 0, inited := true }

/-- `copy_selector` (src/sps.c:1848): copies the four coordinates (not the
`initialized` flag). -/
def copy_selector (source dest : Raw_selector) : Raw_selector :=
  { dest with lld_ir1 := source.lld_ir1, lld_ir2 := source.lld_ir2,
              lld_ic1 := source.lld_ic1, lld_ic2 := source.lld_ic2 }

/-- The row-major list of cell coordinates a selection loop visits. -/
def selCells (t : TableRows) (sel : Raw_selector) : List (Int × Int) :=
  (selRows t sel.lld_ir1 sel.lld_ir2).flatMap
    (fun i => (selColsInRow t sel.lld_ic1 sel.lld_ic2 i).map (fun j => (i, j)))

/-! ## Line parsing and the load/save pipeline -/

/-- One in-place pass of `normalize_delims` (src/sps.c:628) replacing the
secondary delimiter `di` by the primary `d0`.  `prev` is the previous byte
of the buffer *after* any replacement at that position (the C loop reads
`line[j-1]` from the buffer it is rewriting). -/
def normPassAux (d0 di : Char) : List Char → QState → Option Char → List Char
  | [], _, _ => []
  | cc :: rest, q, prev =>
    let q' := qsNext q cc
    let cc2 := if cc == di && !q'.inSingle && !q'.inDouble
        && prev != none && prev != some '\\' then d0 else cc
    cc2 :: normPassAux d0 di rest q' (some cc2)

/-- `normalize_delims` (src/sps.c:628): one rewrite pass per secondary
delimiter, in order. -/
def normalize_delims (line : List Char) (delims : List Char) : List Char :=
  (delims.drop 1).foldl (fun l di => normPassAux (delims.headD ' ') di l qsInit none) line

/-- The cells `create_row_from_data` (src/sps.c:1763) extracts from a
line: `count_char(line, delim, false) + 1` segments of `get_substring`. -/
def create_row_cells (d : Char) (line : List Char) : List (List Char) :=
  (List.range (count_char line d false + 1)).map (fun i => get_substring_seg line d i false)

/-- `create_row_from_data` with its failure path: when the very first
segment is empty, `get_substring` leaves the substring buffer as the null
pointer, `set_cell(NULL, …)` reports `FUNCTION_ARGUMENT_ERROR`, and
`create_row_from_data` turns any `set_cell` failure into
`ALLOCATION_FAILED`.  (With `ignore_escapes = false` an occurrence at
offset 0 is never counted, so this happens exactly for empty lines.) -/
def create_row_from_data (d : Char) (line : List Char) : Except Int (List (List Char)) :=
  if get_substring_seg line d 0 false = [] then .error ALLOCATION_FAILED
  else .ok (create_row_cells d line)

/-- The lines `get_line` (src/sps.c:937) delivers: split at `'\n'`; a
trailing newline does not produce an extra empty line (at end of file with
nothing read, `get_line` returns -1). -/
def fileLines : List Char → List (List Char)
  | [] => []
  | c :: s =>
    if c = '\n' then [] :: fileLines s
    else
      match fileLines s with
      | [] => [[c]]
      | l :: ls => (c :: l) :: ls

/-- `load_table` (src/sps.c:2325): for every line, strip the line ending,
normalize secondary delimiters, and split into cells; the first failing
row aborts the load with its error code. -/
def load_table (delims : List Char) (f : List Char) : Except Int TableRows :=
  (fileLines f).mapM (fun line =>
    create_row_from_data (delims.headD ' ') (normalize_delims (rm_newline_chars line) delims))

/-- `save_table` (src/sps.c:1253): every row is written as its cell
contents joined by the output delimiter, followed by `'\n'`. -/
def save_table (d : Char) (t : TableRows) : List Char :=
  t.foldr (fun r acc => joinCells d r ++ '\n' :: acc) []

/-! ## Shape normalization -/

/-- The maximum row length (`normalize_row_lengths`, src/sps.c:1667). -/
def max_number_of_cols (t : TableRows) : Nat :=
  t.foldl (fun m r => max m r.length) 0

/-- `normalize_row_lengths`: append empty cells to every short row. -/
def normalize_row_lengths (t : TableRows) : TableRows :=
  t.map (fun r => r ++ List.replicate (max_number_of_cols t - r.length) [])

/-- Whether column `i` is empty in every row (the inner loop of
`normalize_empty_cols`). -/
def colAllEmpty (t : TableRows) (i : Nat) : Bool :=
  t.all (fun r => r.getD i [] == [])

/-- The countdown loop of `normalize_empty_cols` (src/sps.c:1703): while
the last column index is still positive and that column is entirely
empty, drop the last cell of every row; stop at the first non-empty
column.  The fuel is the starting column count, which bounds the number
of iterations. -/
def trimEmptyColsAux : Nat → TableRows → TableRows
  | 0, t => t
  | f + 1, t =>
    let n := (t.headD []).length
    if 1 < n ∧ colAllEmpty t (n - 1) then trimEmptyColsAux f (t.map List.dropLast)
    else t

/-- `normalize_empty_cols` (src/sps.c:1703). -/
def normalize_empty_cols (t : TableRows) : TableRows :=
  if 0 < t.length then trimEmptyColsAux (t.headD []).length t else t

/-- `normalize_number_of_cols` (src/sps.c:1742): pad, then trim. -/
def normalize_number_of_cols (t : TableRows) : TableRows :=
  normalize_empty_cols (normalize_row_lengths t)

/-! ## Diagnostics

`selector_min` / `selector_max` print a warning line to `stdout` when no
numeric cell was found; the `fprintf` is modelled as an emitted event
carrying the four printed numbers (`lld_?+1` each).  `selector_find`
contains no print statement. -/

inductive Diag where
  | warnNoMax (r1 c1 r2 c2 : Int)
  | warnNoMin (r1 c1 r2 c2 : Int)
deriving DecidableEq

/-! ## Selector evaluation -/

/-- `string_start_with(cell, str)` scan of `selector_find`
(src/sps.c:1863), inner loop over the clamped columns of row `i`. -/
def find_in_cols (t : TableRows) (str : List Char) (i : Int) : List Int → Option Int
  | [] => none
  | j :: js =>
    if string_start_with (contentAt t i j) str then some j else find_in_cols t str i js

/-- Outer loop of `selector_find` over the clamped rows. -/
def find_in_rows (t : TableRows) (sel : Raw_selector) (str : List Char) :
    List Int → Option (Int × Int)
  | [] => none
  | i :: is' =>
    match find_in_cols t str i (selColsInRow t sel.lld_ic1 sel.lld_ic2 i) with
    | some j => some (i, j)
    | none => find_in_rows t sel str is'

/-- `selector_find` (src/sps.c:1863): scan the current selection in
row-major order and shrink to the first cell whose content starts with
`str`; leave the selection unchanged otherwise.  No diagnostic is ever
emitted. -/
def selector_find (sel : Raw_selector) (t : TableRows) (str : List Char) :
    Raw_selector × List Diag :=
  match find_in_rows t sel str (selRows t sel.lld_ir1 sel.lld_ir2) with
  | some p =>
    ({ sel with lld_ir1 := p.1, lld_ir2 := p.1, lld_ic1 := p.2, lld_ic2 := p.2 }, [])
  | none => (sel, [])

/-- The quote trimming of `selector_min` / `selector_max`: strip one pair
of surrounding double or single quotes from the copied test string. -/
def trimQuotesForCmp (s : List Char) : List Char :=
  if (string_start_with s ['"'] && string_end_with s ['"'])
      || (string_start_with s ['\''] && string_end_with s ['\'']) then trim_se s else s

/-- Accumulating scan of `selector_min` / `selector_max` over the clamped
selection: `better v m` is `ret > max` (for max) resp. `ret < min`. -/
def minmax_scan (t : TableRows) (better : LD → LD → Bool) :
    List (Int × Int) → LD → Int → Int → Bool → LD × Int × Int × Bool
  | [], m, r, c, found => (m, r, c, found)
  | p :: ps, m, r, c, found =>
    let ts := trimQuotesForCmp (contentAt t p.1 p.2)
    if is_string_ldouble ts then
      let v := string_to_ldouble_val ts
      if better v m then minmax_scan t better ps v p.1 p.2 true
      else minmax_scan t better ps m r c found
    else minmax_scan t better ps m r c found

/-- `selector_max` (src/sps.c:1895). -/
def selector_max (sel : Raw_selector) (t : TableRows) : Int × Raw_selector × List Diag :=
  let res := minmax_scan t (fun v m => LD.blt m v) (selCells t sel)
    (LD.neg LDBL_MAX_LD) 0 0 false
  if res.2.2.2 then
    (NO_ERROR, { sel with lld_ir1 := res.2.1, lld_ir2 := res.2.1,
                          lld_ic1 := res.2.2.1, lld_ic2 := res.2.2.1 }, [])
  else
    (NO_ERROR, sel, [Diag.warnNoMax (sel.lld_ir1 + 1) (sel.lld_ic1 + 1)
      (sel.lld_ir2 + 1) (sel.lld_ic2 + 1)])

/-- `selector_min` (src/sps.c:1966). -/
def selector_min (sel : Raw_selector) (t : TableRows) : Int × Raw_selector × List Diag :=
  let res := minmax_scan t (fun v m => LD.blt v m) (selCells t sel)
    LDBL_MAX_LD 0 0 false
  if res.2.2.2 then
    (NO_ERROR, { sel with lld_ir1 := res.2.1, lld_ir2 := res.2.1,
                          lld_ic1 := res.2.2.1, lld_ic2 := res.2.2.1 }, [])
  else
    (NO_ERROR, sel, [Diag.warnNoMin (sel.lld_ir1 + 1) (sel.lld_ic1 + 1)
      (sel.lld_ir2 + 1) (sel.lld_ic2 + 1)])

/-- `selector_select_all` (src/sps.c:2037).  The body assigns
`lld_ir1 = lld_ic1 = 0`, `lld_ir2 = num_of_rows - 1`, `lld_ic1 = 0` (a
second time, harmless) and `lld_ic2 = rows[0].num_of_cells - 1`; the net
effect is recorded here. -/
def selector_select_all (sel : Raw_selector) (t : TableRows) : Raw_selector :=
  { sel with lld_ir1 := 0, lld_ic1 := 0,
             lld_ir2 := (nrows t : Int) - 1, lld_ic2 := (ncols0 t : Int) - 1 }

/-- `selector_select_last` (src/sps.c:2052). -/
def selector_select_last (sel : Raw_selector) (t : TableRows) : Raw_selector :=
  { sel with lld_ir1 := (nrows t : Int) - 1, lld_ir2 := (nrows t : Int) - 1,
             lld_ic1 := (ncols0 t : Int) - 1, lld_ic2 := (ncols0 t : Int) - 1 }

/-- `selector_select_last_colm` (src/sps.c:2065). -/
def selector_select_last_colm (sel : Raw_selector) (t : TableRows) : Raw_selector :=
  { sel with lld_ir1 := 0, lld_ir2 := (nrows t : Int) - 1,
             lld_ic1 := (ncols0 t : Int) - 1, lld_ic2 := (ncols0 t : Int) - 1 }

/-- `selector_select_last_row` (src/sps.c:2079). -/
def selector_select_last_row (sel : Raw_selector) (t : TableRows) : Raw_selector :=
  { sel with lld_ir1 := (nrows t : Int) - 1, lld_ir2 := (nrows t : Int) - 1,
             lld_ic1 := 0, lld_ic2 := (ncols0 t : Int) - 1 }

/-- Part `i` of a selector split on `','`: null when the segment is empty
(the substring buffer is then never allocated). -/
def selPart (buf : List Char) (i : Nat) : Option (List Char) :=
  let g := get_substring_seg buf ',' i true
  if g = [] then none else some g

/-- `is_string_llint` through a possibly-null part. -/
def partIsLlint : Option (List Char) → Bool
  | none => false
  | some s => is_string_llint s

/-- The parsed value of a part (0 when not converted, as the zeroed
`parts_llint` array). -/
def partVal : Option (List Char) → Int
  | none => 0
  | some s => if is_string_llint s then string_to_llint s else 0

/-- `selector_select_2p_area` (src/sps.c:2134). -/
def selector_select_2p_area (sel : Raw_selector) (t : TableRows)
    (parts : List (Option (List Char))) : Int × Raw_selector :=
  let b0 := partIsLlint (parts.getD 0 none)
  let b1 := partIsLlint (parts.getD 1 none)
  let v0 := partVal (parts.getD 0 none)
  let v1 := partVal (parts.getD 1 none)
  if b0 && b1 then
    if 0 < v0 ∧ v0 ≤ (nrows t : Int) ∧ 0 < v1 ∧ v1 ≤ (ncols0 t : Int) then
      (NO_ERROR, { sel with lld_ir1 := v0 - 1, lld_ir2 := v0 - 1,
                            lld_ic1 := v1 - 1, lld_ic2 := v1 - 1 })
    else (SELECTOR_ERROR, sel)
  else if b0 && !b1 then
    if 0 < v0 ∧ v0 ≤ (nrows t : Int) ∧ strings_equal (parts.getD 1 none) (some ['_']) then
      (NO_ERROR, { sel with lld_ir1 := v0 - 1, lld_ir2 := v0 - 1,
                            lld_ic1 := 0, lld_ic2 := (ncols0 t : Int) - 1 })
    else if 0 < v0 ∧ v0 ≤ (nrows t : Int) ∧ strings_equal (parts.getD 1 none) (some ['-']) then
      (NO_ERROR, { sel with lld_ir1 := v0 - 1, lld_ir2 := v0 - 1,
                            lld_ic1 := (ncols0 t : Int) - 1, lld_ic2 := (ncols0 t : Int) - 1 })
    else (SELECTOR_ERROR, sel)
  else if !b0 && b1 then
    if strings_equal (parts.getD 0 none) (some ['_']) ∧ 0 < v1 ∧ v1 ≤ (ncols0 t : Int) then
      (NO_ERROR, { sel with lld_ir1 := 0, lld_ir2 := (nrows t : Int) - 1,
                            lld_ic1 := v1 - 1, lld_ic2 := v1 - 1 })
    else if strings_equal (parts.getD 0 none) (some ['-']) ∧ 0 < v1 ∧ v1 ≤ (ncols0 t : Int) then
      (NO_ERROR, { sel with lld_ir1 := (nrows t : Int) - 1, lld_ir2 := (nrows t : Int) - 1,
                            lld_ic1 := v1 - 1, lld_ic2 := v1 - 1 })
    else (SELECTOR_ERROR, sel)
  else (SELECTOR_ERROR, sel)

/-- `selector_select_4p_area` (src/sps.c:2093). -/
def selector_select_4p_area (sel : Raw_selector) (t : TableRows)
    (parts : List (Option (List Char))) : Int × Raw_selector :=
  let b : Nat → Bool := fun i => partIsLlint (parts.getD i none)
  let v : Nat → Int := fun i => partVal (parts.getD i none)
  let isDash : Nat → Bool := fun i => strings_equal (parts.getD i none) (some ['-'])
  if !((!(b 2) && !(isDash 2)) || (!(b 3) && !(isDash 3)))
      && !((!(b 0) && !(isDash 0)) || (!(b 1) && !(isDash 1))) then
    if (!(b 0) && b 2) || (!(b 1) && b 3)
        || (b 0 && b 2 && decide (v 2 < v 0)) || (b 1 && b 3 && decide (v 3 < v 1))
        || (b 0 && decide ((nrows t : Int) < v 0 ∨ v 0 < 1))
        || (b 2 && decide ((nrows t : Int) < v 2 ∨ v 2 < 1))
        || (b 1 && decide ((ncols0 t : Int) < v 1 ∨ v 1 < 1))
        || (b 3 && decide ((ncols0 t : Int) < v 3 ∨ v 3 < 1)) then
      (SELECTOR_ERROR, sel)
    else
      (NO_ERROR, { sel with
        lld_ir1 := if b 0 then v 0 - 1 else (nrows t : Int) - 1,
        lld_ic1 := if b 1 then v 1 - 1 else (ncols0 t : Int) - 1,
        lld_ir2 := if b 2 then v 2 - 1 else (nrows t : Int) - 1,
        lld_ic2 := if b 3 then v 3 - 1 else (ncols0 t : Int) - 1 })
  else (SELECTOR_ERROR, sel)

/-- A selector part is valid when it converts as `long long int` or is
`-` or `_` (otherwise the parse loop of `set_selector` stops with
`SELECTOR_ERROR`). -/
def selPartValid : Option (List Char) → Bool
  | none => false
  | some s => is_string_llint s || s == ['-'] || s == ['_']

/-- `set_selector` (src/sps.c:2198).  `fn` is the command's function
string (brackets included); the result is the error code, the updated
main selector, the updated temporary selector, and the emitted
diagnostics.  A `find` without argument passes the null pointer to
`strlen` in C (undefined behavior); it is modelled as the empty string
and never exercised by a theorem. -/
def set_selector (sel tmp : Raw_selector) (fn : List Char) (t : TableRows) :
    Int × Raw_selector × Raw_selector × List Diag :=
  if !sel.inited || !tmp.inited then (FUNCTION_ERROR, sel, tmp, [])
  else
    let f2 := trim_se fn
    let g := get_substring_seg f2 ' ' 0 true
    let buffer : Option (List Char) := if g = [] then none else some g
    let rest : Option (List Char) :=
      if g = [] then none else get_substring_rest f2 ' ' true
    if strings_equal buffer (some ['f', 'i', 'n', 'd']) then
      let r := selector_find sel t (rest.getD [])
      (NO_ERROR, r.1, tmp, r.2)
    else if strings_equal buffer (some ['m', 'a', 'x']) then
      let r := selector_max sel t
      (r.1, r.2.1, tmp, r.2.2)
    else if strings_equal buffer (some ['m', 'i', 'n']) then
      let r := selector_min sel t
      (r.1, r.2.1, tmp, r.2.2)
    else if strings_equal buffer (some ['_', ',', '_']) then
      (NO_ERROR, selector_select_all sel t, tmp, [])
    else if strings_equal buffer (some ['-', ',', '-'])
        || strings_equal buffer (some ['-', ',', '-', ',', '-', ',', '-']) then
      (NO_ERROR, selector_select_last sel t, tmp, [])
    else if strings_equal buffer (some ['_', ',', '-']) then
      (NO_ERROR, selector_select_last_colm sel t, tmp, [])
    else if strings_equal buffer (some ['-', ',', '_']) then
      (NO_ERROR, selector_select_last_row sel t, tmp, [])
    else if strings_equal buffer (some ['_']) then
      (NO_ERROR, copy_selector tmp sel, tmp, [])
    else if strings_equal buffer (some ['s', 'e', 't']) then
      (NO_ERROR, sel, copy_selector sel tmp, [])
    else
      match buffer with
      | none => (FUNCTION_ERROR, sel, tmp, [])
      | some buf =>
        let nparts := count_char buf ',' true + 1
        let parts := (List.range nparts).map (selPart buf)
        if parts.all selPartValid then
          match nparts with
          | 2 =>
            let r := selector_select_2p_area sel t parts
            (r.1, r.2, tmp, [])
          | 4 =>
            let r := selector_select_4p_area sel t parts
            (r.1, r.2, tmp, [])
          | _ => (SELECTOR_ERROR, sel, tmp, [])
        else (SELECTOR_ERROR, sel, tmp, [])

/-! ## Data operators used by the claims -/

/-- `set_value_in_area` (src/sps.c:1361); `v = none` models a null
`string` argument. -/
def set_value_in_area (t : TableRows) (sel : Raw_selector) (v : Option (List Char)) :
    Int × TableRows :=
  if nrows t = 0 ∨ ncols0 t = 0 ∨ v = none then (COMMAND_ERROR, t)
  else
    (NO_ERROR, (selCells t sel).foldl (fun acc p => updCell acc p.1 p.2 (v.getD [])) t)

/-- The total the `sum_cells` loop accumulates over a cell list when every
content parses (each cell's parsed value added in order to 0). -/
def selSumLD (t : TableRows) (cells : List (Int × Int)) : LD :=
  cells.foldl (fun a p => LD.add a (string_to_ldouble_val (contentAt t p.1 p.2))) ⟨0, 1⟩

/-- The accumulating scan of `sum_cells`: add every numeric cell, stop at
the first non-numeric one with the `nan` flag set (it breaks both
loops). -/
def sum_scan (t : TableRows) : List (Int × Int) → LD → LD × Bool
  | [], acc => (acc, false)
  | p :: ps, acc =>
    if is_string_ldouble (contentAt t p.1 p.2) then
      sum_scan t ps (LD.add acc (string_to_ldouble_val (contentAt t p.1 p.2)))
    else (acc, true)

/-- `sum_cells` (src/sps.c:1440). -/
def sum_cells (t : TableRows) (sel : Raw_selector) (r c : Int) : Int × TableRows :=
  if r < 0 ∨ (nrows t : Int) - 1 < r ∨ c < 0 ∨ (ncols0 t : Int) - 1 < c then
    (FUNCTION_ARGUMENT_ERROR, t)
  else
    let res := sum_scan t (selCells t sel) ⟨0, 1⟩
    if res.2 then (NO_ERROR, updCell t r c ['N', 'a', 'N'])
    else (NO_ERROR, updCell t r c (ldouble_to_string res.1))

/-- The accumulating scan of `avg_cells`: also counts the numeric cells. -/
def avg_scan (t : TableRows) : List (Int × Int) → LD → Nat → LD × Nat × Bool
  | [], acc, k => (acc, k, false)
  | p :: ps, acc, k =>
    if is_string_ldouble (contentAt t p.1 p.2) then
      avg_scan t ps (LD.add acc (string_to_ldouble_val (contentAt t p.1 p.2))) (k + 1)
    else (acc, k, true)

/-- `avg_cells` (src/sps.c:1504).  When the scan is empty (`num_of_vals`
is 0) the C division `0.0/0.0` produces a floating NaN; the claims never
reach that case. -/
def avg_cells (t : TableRows) (sel : Raw_selector) (r c : Int) : Int × TableRows :=
  if r < 0 ∨ (nrows t : Int) - 1 < r ∨ c < 0 ∨ (ncols0 t : Int) - 1 < c then
    (FUNCTION_ARGUMENT_ERROR, t)
  else
    let res := avg_scan t (selCells t sel) ⟨0, 1⟩ 0
    if res.2.2 then (NO_ERROR, updCell t r c ['N', 'a', 'N'])
    else (NO_ERROR, updCell t r c (ldouble_to_string (LD.divNat res.1 res.2.1)))

/-! ## `swap_cells` with an explicit allocation budget (claim C7)

`string_copy` always calls `malloc`, so it is the operation through which
an allocation failure enters `swap_cells`.  The budget is the number of
allocations that will still succeed; a `string_copy` at budget 0 reports
`ALLOCATION_FAILED`.  (`set_cell` only reallocates when the target buffer
is too small; it is modelled as infallible, which is the case whenever
capacity suffices.) -/

def string_copy_a (src : List Char) (budget : Nat) : Int × Option (List Char) × Nat :=
  match budget with
  | 0 => (ALLOCATION_FAILED, none, 0)
  | b + 1 => (NO_ERROR, some src, b)

/-- The double loop of `swap_cells`: on any internal failure it stops
(the C `break`s) and reports the failing code as the loop outcome. -/
def swap_loop (r c : Int) : List (Int × Int) → TableRows → Nat → Int × TableRows × Nat
  | [], t, b => (NO_ERROR, t, b)
  | p :: ps, t, b =>
    if p.1 = r ∧ p.2 = c then swap_loop r c ps t b
    else
      let c1 := string_copy_a (contentAt t r c) b
      if c1.1 ≠ NO_ERROR then (c1.1, t, c1.2.2)
      else
        let c2 := string_copy_a (contentAt t p.1 p.2) c1.2.2
        if c2.1 ≠ NO_ERROR then (c2.1, t, c2.2.2)
        else
          let t2 := updCell (updCell t r c (c2.2.1.getD [])) p.1 p.2 (c1.2.1.getD [])
          swap_loop r c ps t2 c2.2.2

/-- `swap_cells` (src/sps.c:1389).  Returns the value the C function
returns, the final value of its local `ret_val`, and the table.  After
the bounds precheck the function body ends in `return NO_ERROR;`
regardless of `ret_val` (src/sps.c:1437). -/
def swap_cells (t : TableRows) (sel : Raw_selector) (r c : Int) (budget : Nat) :
    Int × Int × TableRows :=
  if r < 0 ∨ (nrows t : Int) - 1 < r ∨ c < 0 ∨ (ncols0 t : Int) - 1 < c then
    (FUNCTION_ARGUMENT_ERROR, FUNCTION_ARGUMENT_ERROR, t)
  else
    let res := swap_loop r c (selCells t sel) t budget
    (NO_ERROR, res.1, res.2.1)

/-! ## Temporary variables (`def` / `use` / `inc`) -/

/-- `set_temporary_variable` (src/sps.c:2692): copy the content of cell
`(lld_ir1, lld_ic1)` into slot `index` when the table is non-empty and
the coordinates pass the bound checks (note the column bound is checked
against row 0); otherwise the store is left unchanged.  Either way the
function reports `NO_ERROR` (the copy cannot fail in the ideal-allocator
model). -/
def set_temporary_variable (t : TableRows) (sel : Raw_selector)
    (store : List (Option (List Char))) (index : Nat) :
    Int × List (Option (List Char)) :=
  if 0 < nrows t ∧ 0 < ncols0 t ∧ sel.lld_ir1 < (nrows t : Int)
      ∧ sel.lld_ic1 < (ncols0 t : Int) then
    (NO_ERROR, store.set index (some (contentAt t sel.lld_ir1 sel.lld_ic1)))
  else (NO_ERROR, store)

/-- `set_cell_from_temporary_variable` (src/sps.c:2729): write slot
`index` into every cell of the selection; a null slot or an empty table
is a silent no-op. -/
def set_cell_from_temporary_variable (t : TableRows) (sel : Raw_selector)
    (store : List (Option (List Char))) (index : Nat) : Int × TableRows :=
  if 0 < nrows t ∧ 0 < ncols0 t ∧ store.getD index none ≠ none then
    set_value_in_area t sel (store.getD index none)
  else (NO_ERROR, t)

/-- `increase_temporary_variable` (src/sps.c:2755): a null slot becomes
`"1"`; a numeric slot is parsed, incremented by 1.0 and reformatted
(`%li` when the result has no fractional part, `%Lg` otherwise); a
non-numeric slot takes the value 1.0 through the same formatting, i.e.
becomes `"1"`. -/
def increase_temporary_variable (store : List (Option (List Char))) (index : Nat) :
    Int × List (Option (List Char)) :=
  match store.getD index none with
  | some s =>
    let v := if is_string_ldouble s then LD.add (string_to_ldouble_val s) LD.one else LD.one
    let str := if is_ldouble_lint v then lint_to_string (LD.truncI v) else ldouble_to_string v
    (NO_ERROR, store.set index (some str))
  | none => (NO_ERROR, store.set index (some ['1']))

/-! ### Scanner lemmas -/

theorem scanAux_mem {c : Char} {ig : Bool} :
    ∀ {s : List Char} {i : Nat} {q : QState} {prev : Option Char} {p : Nat},
      p ∈ scanAux c ig s i q prev → i ≤ p ∧ p - i < s.length ∧ s.get? (p - i) = some c := by
  intro s
  induction s with
  | nil => intro i q prev p hp; simp [scanAux] at hp
  | cons cc rest ih =>
    intro i q prev p hp
    simp only [scanAux, List.mem_append] at hp
    rcases hp with hp | hp
    · by_cases hc : (cc == c && occCounts (qsNext q cc) ig i prev) = true
      · simp [hc] at hp
        subst hp
        refine ⟨le_refl _, by simp, ?_⟩
        simp only [Nat.sub_self]
        simp only [Bool.and_eq_true, beq_iff_eq] at hc
        simp [hc.1]
      · simp [hc] at hp
    · obtain ⟨h1, h2, h3⟩ := ih hp
      refine ⟨by omega, by simp; omega, ?_⟩
      have hps : p - i = (p - (i + 1)) + 1 := by omega
      rw [hps]
      simpa using h3

theorem scanAux_pairwise {c : Char} {ig : Bool} :
    ∀ {s : List Char} {i : Nat} {q : QState} {prev : Option Char},
      (scanAux c ig s i q prev).Pairwise (· < ·) := by
  intro s
  induction s with
  | nil => intro i q prev; simp [scanAux]
  | cons cc rest ih =>
    intro i q prev
    simp only [scanAux]
    by_cases hc : (cc == c && occCounts (qsNext q cc) ig i prev) = true
    · simp only [hc, if_true, List.singleton_append, List.pairwise_cons]
      refine ⟨fun p hp => ?_, ih⟩
      have := (scanAux_mem hp).1
      omega
    · simp only [hc, if_false, List.nil_append]
      exact ih

theorem countedPositions_mem {s : List Char} {c : Char} {ig : Bool} {p : Nat}
    (hp : p ∈ countedPositions s c ig) : p < s.length ∧ s.get? p = some c := by
  have h := @scanAux_mem c ig _ _ _ _ _ hp
  refine ⟨by simpa using h.2.1, ?_⟩
  have := h.2.2
  simpa using this

theorem countedPositions_pairwise (s : List Char) (c : Char) (ig : Bool) :
    (countedPositions s c ig).Pairwise (· < ·) :=
  scanAux_pairwise

/-- With `ignore_escapes` false, the guard `i != 0 && string[i-1] != '\\'`
fails at index 0, so the scan never records byte offset 0. -/
theorem zero_not_counted (s : List Char) (c : Char) :
    0 ∉ countedPositions s c false := by
  intro h0
  unfold countedPositions at h0
  match s with
  | [] => simp [scanAux] at h0
  | cc :: rest =>
    simp only [scanAux, List.mem_append] at h0
    rcases h0 with h0 | h0
    · by_cases hc : (cc == c && occCounts (qsNext qsInit cc) false 0 none) = true
      · simp [occCounts] at hc
      · simp [hc] at h0
    · have := (scanAux_mem h0).1
      omega

/-! ### Splitting a line into segments and joining them back -/

theorem slice_shift (s : List Char) (k a b : Nat) (hk : k ≤ a) :
    slice s a b = slice (s.drop k) (a - k) (b - k) := by
  unfold slice
  rw [List.drop_drop]
  have h1 : k + (a - k) = a := by omega
  have h2 : b - k - (a - k) = b - a := by omega
  rw [h1, h2]

theorem getD_map_sub (l : List Nat) (k n : Nat) :
    (l.map (· - k)).getD n 0 = l.getD n 0 - k := by
  induction l generalizing n with
  | nil => simp
  | cons x xs ih =>
    cases n with
    | zero => simp
    | succ m => simpa using ih m

theorem segsOf_ne_nil (s : List Char) (ps : List Nat) : segsOf s ps ≠ [] := by
  cases ps <;> simp [segsOf]

theorem joinCells_cons (d : Char) (x : List Char) {xs : List (List Char)} (h : xs ≠ []) :
    joinCells d (x :: xs) = x ++ d :: joinCells d xs := by
  cases xs with
  | nil => exact absurd rfl h
  | cons y ys => rfl

theorem getD_mem {l : List Nat} {n : Nat} (h : n < l.length) : l.getD n 0 ∈ l := by
  rw [List.getD_eq_getElem l 0 h]
  exact List.getElem_mem h

theorem sliceSeg_cons (s : List Char) (p : Nat) (ps : List Nat) (i : Nat)
    (hi : i ≤ ps.length) (hgt : ∀ q ∈ ps, p < q) :
    sliceSeg s (p :: ps) (i + 1) = sliceSeg (s.drop (p + 1)) (ps.map (· - (p + 1))) i := by
  have hdlen : (s.drop (p + 1)).length = s.length - (p + 1) := by simp
  have hstart : (if i + 1 = 0 then 0 else (p :: ps).getD (i + 1 - 1) 0 + 1)
      = (p :: ps).getD i 0 + 1 := by simp
  simp only [sliceSeg]
  rw [hstart]
  have hgol : p + 1 ≤ (p :: ps).getD i 0 + 1 := by
    cases i with
    | zero => simp
    | succ j =>
      have hj : j < ps.length := by omega
      simp only [List.getD_cons_succ]
      exact Nat.succ_le_succ (le_of_lt (hgt _ (getD_mem hj)))
  rw [slice_shift s (p + 1) ((p :: ps).getD i 0 + 1) _ hgol]
  have hstart2 : (p :: ps).getD i 0 + 1 - (p + 1)
      = (if i = 0 then 0 else (List.map (fun x => x - (p + 1)) ps).getD (i - 1) 0 + 1) := by
    cases i with
    | zero => simp
    | succ j =>
      have hj : j < ps.length := by omega
      have hq := hgt _ (getD_mem hj)
      simp only [Nat.succ_ne_zero, if_false, Nat.succ_sub_one, getD_map_sub,
        List.getD_cons_succ]
      omega
  have hstop2 : (if (p :: ps).length ≤ i + 1 then s.length else (p :: ps).getD (i + 1) 0) - (p + 1)
      = (if (List.map (fun x => x - (p + 1)) ps).length ≤ i then (List.drop (p + 1) s).length
        else (List.map (fun x => x - (p + 1)) ps).getD i 0) := by
    by_cases hL : ps.length ≤ i
    · rw [if_pos (by simp; omega), if_pos (by simpa using hL), hdlen]
    · have hiL : i < ps.length := by omega
      rw [if_neg (by simp; omega), if_neg (by simpa using hL)]
      simp only [List.getD_cons_succ, getD_map_sub]
  rw [hstart2, hstop2]

theorem sliceSegs_eq_segsOf_aux :
    ∀ (n : Nat) (ps : List Nat) (s : List Char), ps.length = n →
      ps.Pairwise (· < ·) → (∀ p ∈ ps, p < s.length) →
      (List.range (ps.length + 1)).map (sliceSeg s ps) = segsOf s ps := by
  intro n
  induction n with
  | zero =>
    intro ps s hlen _ _
    have hps : ps = [] := List.length_eq_zero.mp hlen
    subst hps
    simp only [List.length_nil, Nat.zero_add, List.range_succ, List.range_zero,
      List.nil_append, List.map_cons, List.map_nil, segsOf]
    congr 1
    unfold sliceSeg
    rw [if_pos rfl, if_pos (by simp)]
    simp [slice]
  | succ n ih =>
    intro ps s hlen hpw hbd
    match ps, hlen with
    | p :: ps, hlen =>
      have hlen2 : (ps.map (· - (p + 1))).length = n := by
        simpa using Nat.succ_injective hlen
      have hp_lt : ∀ q ∈ ps, p < q := fun q hq => (List.pairwise_cons.mp hpw).1 q hq
      have hps_pw : ps.Pairwise (· < ·) := (List.pairwise_cons.mp hpw).2
      have hp_len : p < s.length := hbd p (List.mem_cons_self _ _)
      have hmap_pw : (ps.map (· - (p + 1))).Pairwise (· < ·) := by
        rw [List.pairwise_map]
        refine hps_pw.imp_of_mem ?_
        intro a b ha hb hab
        have := hp_lt a ha
        omega
      have hmap_bd : ∀ q ∈ ps.map (· - (p + 1)), q < (s.drop (p + 1)).length := by
        intro q hq
        rw [List.mem_map] at hq
        obtain ⟨a, ha, rfl⟩ := hq
        have h1 := hp_lt a ha
        have h2 := hbd a (List.mem_cons_of_mem _ ha)
        simp only [List.length_drop]
        omega
      have htail := ih (ps.map (· - (p + 1))) (s.drop (p + 1)) hlen2 hmap_pw hmap_bd
      rw [List.length_cons, List.range_succ_eq_map, List.map_cons, List.map_map, segsOf]
      have hhead : sliceSeg s (p :: ps) 0 = s.take p := by
        unfold sliceSeg
        rw [if_pos rfl, if_neg (by simp)]
        simp [slice]
      have htl : (List.range (ps.length + 1)).map (sliceSeg s (p :: ps) ∘ Nat.succ) =
          segsOf (s.drop (p + 1)) (ps.map (· - (p + 1))) := by
        rw [← htail, List.length_map]
        refine List.map_congr_left ?_
        intro i hi
        rw [List.mem_range] at hi
        simp only [Function.comp]
        exact sliceSeg_cons s p ps i (by omega) hp_lt
      rw [hhead, htl]

theorem sliceSegs_eq_segsOf (ps : List Nat) (s : List Char)
    (hpw : ps.Pairwise (· < ·)) (hbd : ∀ p ∈ ps, p < s.length) :
    (List.range (ps.length + 1)).map (sliceSeg s ps) = segsOf s ps :=
  sliceSegs_eq_segsOf_aux ps.length ps s rfl hpw hbd

theorem joinCells_segsOf_aux {c : Char} :
    ∀ (n : Nat) (ps : List Nat) (s : List Char), ps.length = n →
      ps.Pairwise (· < ·) →
      (∀ p ∈ ps, p < s.length ∧ s.get? p = some c) →
      joinCells c (segsOf s ps) = s := by
  intro n
  induction n with
  | zero =>
    intro ps s hlen _ _
    have hps : ps = [] := List.length_eq_zero.mp hlen
    subst hps
    simp [segsOf, joinCells]
  | succ n ih =>
    intro ps s hlen hpw hocc
    match ps, hlen with
    | p :: ps, hlen =>
      have hlen' : (ps.map (· - (p + 1))).length = n := by
        simpa using Nat.succ_injective hlen
      have hp_lt : ∀ q ∈ ps, p < q := fun q hq => (List.pairwise_cons.mp hpw).1 q hq
      have hps_pw : ps.Pairwise (· < ·) := (List.pairwise_cons.mp hpw).2
      obtain ⟨hp_len, hp_get⟩ := hocc p (List.mem_cons_self _ _)
      rw [segsOf, joinCells_cons c _ (segsOf_ne_nil _ _)]
      rw [ih (ps.map (· - (p + 1))) (s.drop (p + 1)) hlen' ?_ ?_]
      · conv_rhs => rw [← List.take_append_drop p s]
        congr 1
        have hd : s.drop p = c :: s.drop (p + 1) := by
          rw [List.drop_eq_getElem_cons hp_len]
          congr 1
          have hg : s[p]? = some c := by simpa using hp_get
          have := List.getElem?_eq_getElem hp_len
          rw [this] at hg
          exact (Option.some_injective _ hg)
        rw [hd]
      · rw [List.pairwise_map]
        refine hps_pw.imp_of_mem ?_
        intro a b ha hb hab
        have := hp_lt a ha
        omega
      · intro q hq
        rw [List.mem_map] at hq
        obtain ⟨a, ha, rfl⟩ := hq
        have h1 := hp_lt a ha
        obtain ⟨h2, h3⟩ := hocc a (List.mem_cons_of_mem _ ha)
        constructor
        · simp only [List.length_drop]
          omega
        · have hdg : (s.drop (p + 1)).get? (a - (p + 1)) = s.get? (p + 1 + (a - (p + 1))) :=
            List.get?_drop s (p + 1) (a - (p + 1))
          rw [hdg]
          have hpa : p + 1 + (a - (p + 1)) = a := by omega
          rw [hpa]
          exact h3

theorem joinCells_segsOf {c : Char} (ps : List Nat) (s : List Char)
    (hpw : ps.Pairwise (· < ·))
    (hocc : ∀ p ∈ ps, p < s.length ∧ s.get? p = some c) :
    joinCells c (segsOf s ps) = s :=
  joinCells_segsOf_aux ps.length ps s rfl hpw hocc

/-! ## Claim C2: treatment of an occurrence at byte offset 0 -/

/-- C2 counterexample.  The claim states that an occurrence of `c` at byte
offset 0 that is not inside a quoted span is counted by
`count_char(s, c, false)` and locatable by
`get_position_of_character(s, c, 0, false)`.  For `s = "a"`, `c = 'a'` the
occurrence at offset 0 is in no quoted span and not preceded by anything,
yet the count is 0 and the position lookup returns the not-found value
`-1`: the guard `(i != 0 && string[i-1] != '\\')` is false at `i = 0`, so
the code treats offset 0 as if it were escaped. -/
theorem c2_counterexample :
    count_char ['a'] 'a' false = 0 ∧ get_position_of_character ['a'] 'a' 0 false = -1 := by
  constructor
  · rfl
  · rfl

/-- C2 amended: with `ignore_escapes = false` an occurrence at byte
offset 0 is never counted and never located — position 0 is always treated
as escaped, because the guard `i != 0 && string[i-1] != '\\'` requires a
preceding byte.  Only with `ignore_escapes = true` is a leading occurrence
counted (and it is then the first counted occurrence). -/
theorem c2_amended (s : List Char) (c : Char) (n : Nat) :
    get_position_of_character s c n false ≠ 0 ∧
    0 ∉ countedPositions s c false ∧
    (countedPositions (c :: s) c true).head? = some 0 := by
  refine ⟨?_, zero_not_counted s c, ?_⟩
  · unfold get_position_of_character
    match hg : (countedPositions s c false).get? n with
    | some p =>
      have hmem : p ∈ countedPositions s c false := List.get?_mem hg
      have hne : p ≠ 0 := fun h => zero_not_counted s c (h ▸ hmem)
      simp only []
      intro hcontra
      exact hne (by exact_mod_cast hcontra)
    | none => simp
  · simp [countedPositions, scanAux, occCounts]

/-! ## Claim C3 support -/

theorem foldl_max_le_init (t : TableRows) :
    ∀ (b : Nat), b ≤ t.foldl (fun m r => max m r.length) b := by
  induction t with
  | nil => intro b; simp
  | cons r rs ih =>
    intro b
    calc b ≤ max b r.length := le_max_left _ _
    _ ≤ rs.foldl (fun m r => max m r.length) (max b r.length) := ih _

theorem foldl_max_mem (t : TableRows) :
    ∀ (b : Nat) (r : List (List Char)), r ∈ t →
      r.length ≤ t.foldl (fun m r => max m r.length) b := by
  induction t with
  | nil => intro b r hr; simp at hr
  | cons x xs ih =>
    intro b r hr
    rcases List.mem_cons.mp hr with h | h
    · subst h
      calc r.length ≤ max b r.length := le_max_right _ _
      _ ≤ xs.foldl (fun m r => max m r.length) (max b r.length) := foldl_max_le_init xs _
    · exact ih (max b x.length) r h

theorem length_le_max_number_of_cols {t : TableRows} {r : List (List Char)}
    (hr : r ∈ t) : r.length ≤ max_number_of_cols t :=
  foldl_max_mem t 0 r hr

theorem normalize_row_lengths_len {t : TableRows} {r : List (List Char)}
    (hr : r ∈ normalize_row_lengths t) : r.length = max_number_of_cols t := by
  unfold normalize_row_lengths at hr
  rw [List.mem_map] at hr
  obtain ⟨x, hx, rfl⟩ := hr
  have := length_le_max_number_of_cols hx
  simp only [List.length_append, List.length_replicate]
  omega

theorem headD_dropLast {r : List (List Char)} (h : 2 ≤ r.length) :
    r.dropLast.headD [] = r.headD [] := by
  match r, h with
  | a :: b :: rest, _ => simp

/-- The countdown loop of `normalize_empty_cols` on a table of uniform
width `n ≥ 1` with enough fuel terminates in a table of some uniform width
`m ≥ 1` whose last column is non-empty unless `m = 1`; column 0 is never
touched. -/
theorem trimEmptyColsAux_spec :
    ∀ (f : Nat) (rows : TableRows) (n : Nat), rows ≠ [] → 0 < n → n ≤ f + 1 →
      (∀ r ∈ rows, r.length = n) →
      ∃ m, 0 < m ∧
        (∀ r ∈ trimEmptyColsAux f rows, r.length = m) ∧
        (m = 1 ∨ ∃ r ∈ trimEmptyColsAux f rows, r.getD (m - 1) [] ≠ []) ∧
        (trimEmptyColsAux f rows).map (fun r => r.headD []) = rows.map (fun r => r.headD []) := by
  intro f
  induction f with
  | zero =>
    intro rows n hne hpos hle hlen
    refine ⟨n, hpos, by simpa [trimEmptyColsAux] using hlen, ?_, by simp [trimEmptyColsAux]⟩
    left
    omega
  | succ f ih =>
    intro rows n hne hpos hle hlen
    have hhead : (rows.headD []).length = n := by
      match rows, hne with
      | r :: rs, _ => exact hlen r (List.mem_cons_self _ _)
    rw [trimEmptyColsAux]
    by_cases hcond : 1 < (rows.headD []).length ∧ colAllEmpty rows ((rows.headD []).length - 1) = true
    · rw [if_pos hcond]
      have hn2 : 2 ≤ n := by omega
      have hne2 : rows.map List.dropLast ≠ [] := by
        intro h
        exact hne (List.map_eq_nil_iff.mp h)
      have hlen2 : ∀ r ∈ rows.map List.dropLast, r.length = n - 1 := by
        intro r hr
        rw [List.mem_map] at hr
        obtain ⟨x, hx, rfl⟩ := hr
        have := hlen x hx
        simp [List.length_dropLast, this]
      obtain ⟨m, hm1, hm2, hm3, hm4⟩ := ih (rows.map List.dropLast) (n - 1) hne2 (by omega) (by omega) hlen2
      refine ⟨m, hm1, hm2, hm3, ?_⟩
      rw [hm4, List.map_map]
      refine List.map_congr_left ?_
      intro r hr
      have := hlen r hr
      simp only [Function.comp]
      exact headD_dropLast (by omega)
    · rw [if_neg hcond]
      rw [hhead] at hcond
      refine ⟨n, hpos, hlen, ?_, rfl⟩
      by_cases hn1 : n = 1
      · left; exact hn1
      · right
        have h1n : 1 < n := by omega
        have hae : ¬ colAllEmpty rows (n - 1) = true := fun h => hcond ⟨h1n, h⟩
        unfold colAllEmpty at hae
        rw [List.all_eq_true] at hae
        push_neg at hae
        obtain ⟨r, hr, hrne⟩ := hae
        exact ⟨r, hr, by simpa using hrne⟩

/-- C3: after shape normalization every row has the table width, the last
column is non-empty in some row unless the width is 1, and column 0 is
kept verbatim (never deleted even when entirely empty). -/
theorem c3_normalized_shape (t : TableRows) (hne : t ≠ []) (hrows : ∀ r ∈ t, r ≠ []) :
    (∀ r ∈ normalize_number_of_cols t, r.length = ncols0 (normalize_number_of_cols t)) ∧
    (ncols0 (normalize_number_of_cols t) = 1 ∨
      ∃ r ∈ normalize_number_of_cols t,
        r.getD (ncols0 (normalize_number_of_cols t) - 1) [] ≠ []) ∧
    (normalize_number_of_cols t).map (fun r => r.headD []) = t.map (fun r => r.headD []) := by
  have hWpos : 0 < max_number_of_cols t := by
    match t, hne with
    | r :: rs, _ =>
      have hrne : r ≠ [] := hrows r (List.mem_cons_self _ _)
      have h1 : 1 ≤ r.length := by
        cases r with
        | nil => exact absurd rfl hrne
        | cons a as => simp
      have h2 := length_le_max_number_of_cols (List.mem_cons_self r rs)
      omega
  have hpadne : normalize_row_lengths t ≠ [] := by
    unfold normalize_row_lengths
    intro h
    exact hne (List.map_eq_nil_iff.mp h)
  have hpadlen : ∀ r ∈ normalize_row_lengths t, r.length = max_number_of_cols t :=
    fun r hr => normalize_row_lengths_len hr
  have hheadlen : ((normalize_row_lengths t).headD []).length = max_number_of_cols t := by
    match hp : normalize_row_lengths t, hpadne with
    | r :: rs, _ => exact hpadlen r (hp ▸ List.mem_cons_self _ _)
  unfold normalize_number_of_cols normalize_empty_cols
  rw [if_pos (by cases hp : normalize_row_lengths t with
    | nil => exact absurd hp hpadne
    | cons r rs => simp [hp])]
  obtain ⟨m, hm1, hm2, hm3, hm4⟩ := trimEmptyColsAux_spec ((normalize_row_lengths t).headD []).length
    (normalize_row_lengths t) (max_number_of_cols t) hpadne hWpos (by omega) hpadlen
  have houtne : trimEmptyColsAux ((normalize_row_lengths t).headD []).length
      (normalize_row_lengths t) ≠ [] := by
    intro h
    have := congrArg List.length hm4
    rw [h] at this
    simp at this
    exact hpadne (List.eq_nil_of_length_eq_zero this.symm)
  have hncols : ncols0 (trimEmptyColsAux ((normalize_row_lengths t).headD []).length
      (normalize_row_lengths t)) = m := by
    unfold ncols0
    match ho : trimEmptyColsAux ((normalize_row_lengths t).headD []).length
        (normalize_row_lengths t), houtne with
    | r :: rs, _ => exact hm2 r (ho ▸ List.mem_cons_self _ _)
  refine ⟨by rw [hncols]; exact hm2, by rw [hncols]; exact hm3, ?_⟩
  rw [hm4]
  unfold normalize_row_lengths
  rw [List.map_map]
  refine List.map_congr_left ?_
  intro r hr
  simp only [Function.comp]
  match r, hrows r hr with
  | a :: as, _ => simp


/-- C3 witness: the theorem applied to a concrete two-row table whose
second column is entirely empty (it is trimmed; column 0 survives). -/
theorem c3_normalized_shape_witness :
    (∀ r ∈ normalize_number_of_cols [[['a'], []], [['b'], []]],
        r.length = ncols0 (normalize_number_of_cols [[['a'], []], [['b'], []]])) ∧
    (ncols0 (normalize_number_of_cols [[['a'], []], [['b'], []]]) = 1 ∨
      ∃ r ∈ normalize_number_of_cols [[['a'], []], [['b'], []]],
        r.getD (ncols0 (normalize_number_of_cols [[['a'], []], [['b'], []]]) - 1) [] ≠ []) ∧
    (normalize_number_of_cols [[['a'], []], [['b'], []]]).map (fun r => r.headD []) =
      ([[['a'], []], [['b'], []]] : TableRows).map (fun r => r.headD []) :=
  c3_normalized_shape [[['a'], []], [['b'], []]] (by decide)
    (by decide)

/-! ## Claim C4: the selector `[_,_]` -/

/-- C4: on a non-empty table, executing the selector command `[_,_]`
succeeds and sets the current selection to the whole-table rectangle
`(0, 0, rows-1, cols-1)`; the saved selection is untouched and nothing is
printed.  (The duplicated `lld_ic1` assignment in `selector_select_all`
is harmless.) -/
theorem c4_select_all (t : TableRows) (r1 c1 r2 c2 s1 s2 s3 s4 : Int)
    (hr : 0 < nrows t) (hc : 0 < ncols0 t) :
    set_selector ⟨r1, c1, r2, c2, true⟩ ⟨s1, s2, s3, s4, true⟩
        ['[', '_', ',', '_', ']'] t =
      (NO_ERROR, ⟨0, 0, (nrows t : Int) - 1, (ncols0 t : Int) - 1, true⟩,
        ⟨s1, s2, s3, s4, true⟩, []) := rfl

/-- C4 witness: the theorem applied to a concrete 2×3 table. -/
theorem c4_select_all_witness :
    set_selector ⟨1, 2, 1, 2, true⟩ ⟨0, 0, 0, 0, true⟩ ['[', '_', ',', '_', ']']
        [[['1'], ['2'], ['3']], [['4'], ['5'], ['6']]] =
      (NO_ERROR, ⟨0, 0, 1, 2, true⟩, ⟨0, 0, 0, 0, true⟩, []) :=
  c4_select_all [[['1'], ['2'], ['3']], [['4'], ['5'], ['6']]] 1 2 1 2 0 0 0 0
    (by decide) (by decide)

/-! ## Claim C7: `swap_cells` swallows internal failures -/

/-- C7: evaluating `swap_cells` at a failing input.  On the 1×2 table
`["a", "b"]` with the whole row selected, target cell `(0,0)` and an
allocator that fails at the first allocation, the internal `string_copy`
reports `ALLOCATION_FAILED` (second component), the loops stop, yet the
function returns `NO_ERROR` (first component) because its final statement
is `return NO_ERROR;` — the failure is not propagated to the caller,
contradicting the claim and the function's own doc comment. -/
theorem c7_swap_swallows_alloc_failure :
    swap_cells [[['a'], ['b']]] ⟨0, 0, 0, 1, true⟩ 0 0 0 =
      (NO_ERROR, ALLOCATION_FAILED, [[['a'], ['b']]]) := rfl

/-! ## Claims C5/C6 support -/

theorem find?_append {α : Type} (p : α → Bool) :
    ∀ (l1 l2 : List α), (l1 ++ l2).find? p =
      (match l1.find? p with
       | some x => some x
       | none => l2.find? p) := by
  intro l1 l2
  induction l1 with
  | nil => simp
  | cons x xs ih =>
    by_cases hx : p x = true
    · simp [List.find?_cons, hx]
    · simp only [List.cons_append, List.find?_cons, hx, if_neg]
      simp only [Bool.not_eq_true] at hx
      simp [hx, ih]

theorem find_in_cols_eq (t : TableRows) (str : List Char) (i : Int) :
    ∀ js : List Int,
      ((js.map (fun j => (i, j))).find?
          (fun p => string_start_with (contentAt t p.1 p.2) str)) =
        (find_in_cols t str i js).map (fun j => (i, j)) := by
  intro js
  induction js with
  | nil => simp [find_in_cols]
  | cons j js ih =>
    by_cases hj : string_start_with (contentAt t i j) str = true
    · simp [find_in_cols, List.find?_cons, hj]
    · simp only [Bool.not_eq_true] at hj
      simp [find_in_cols, List.find?_cons, hj, ih]

theorem find_in_rows_eq (t : TableRows) (sel : Raw_selector) (str : List Char) :
    ∀ rs : List Int,
      find_in_rows t sel str rs =
        ((rs.flatMap (fun i =>
            (selColsInRow t sel.lld_ic1 sel.lld_ic2 i).map (fun j => (i, j)))).find?
          (fun p => string_start_with (contentAt t p.1 p.2) str)) := by
  intro rs
  induction rs with
  | nil => simp [find_in_rows]
  | cons i rs ih =>
    rw [List.flatMap_cons, find?_append]
    rw [find_in_cols_eq t str i]
    unfold find_in_rows
    cases hfc : find_in_cols t str i (selColsInRow t sel.lld_ic1 sel.lld_ic2 i) with
    | none => simpa using ih
    | some j => simp

/-- `selector_find` selects the first row-major match of the clamped
selection (and otherwise leaves the selection unchanged); it never emits
output. -/
theorem selector_find_eq (sel : Raw_selector) (t : TableRows) (str : List Char) :
    selector_find sel t str =
      ((match (selCells t sel).find?
            (fun p => string_start_with (contentAt t p.1 p.2) str) with
        | some p => { sel with lld_ir1 := p.1, lld_ir2 := p.1,
                               lld_ic1 := p.2, lld_ic2 := p.2 }
        | none => sel), []) := by
  unfold selector_find selCells
  rw [find_in_rows_eq]
  cases (((selRows t sel.lld_ir1 sel.lld_ir2).flatMap fun i =>
      List.map (fun j => (i, j)) (selColsInRow t sel.lld_ic1 sel.lld_ic2 i)).find?
        (fun p => string_start_with (contentAt t p.1 p.2) str)) with
  | none => rfl
  | some p => rfl

theorem cp_find_arg (str : List Char) :
    countedPositions ('f' :: 'i' :: 'n' :: 'd' :: ' ' :: str) ' ' true =
      4 :: scanAux ' ' true str 5 qsInit (some ' ') := by
  simp [countedPositions, scanAux, qsNext, occCounts, qsInit]

theorem seg_find_arg (str : List Char) :
    get_substring_seg ('f' :: 'i' :: 'n' :: 'd' :: ' ' :: str) ' ' 0 true =
      ['f', 'i', 'n', 'd'] := by
  unfold get_substring_seg
  rw [cp_find_arg]
  simp [sliceSeg, slice]

theorem rest_find_arg (str : List Char) :
    get_substring_rest ('f' :: 'i' :: 'n' :: 'd' :: ' ' :: str) ' ' true = some str := by
  unfold get_substring_rest
  rw [cp_find_arg]
  rfl

theorem trim_find_arg (str : List Char) :
    trim_se ('[' :: (('f' :: 'i' :: 'n' :: 'd' :: ' ' :: str) ++ [']'])) =
      'f' :: 'i' :: 'n' :: 'd' :: ' ' :: str := by
  unfold trim_se
  rw [if_pos (by simp)]
  simp only [List.drop_succ_cons, List.drop_zero, List.dropLast_concat]

/-! ## Claim C5: the `find STR` selector -/

/-- C5: executing `[find STR]` on any table succeeds and either shrinks
the current selection to the first cell of the clamped selection (in
row-major order) whose content starts with `STR`, or — when no cell
matches — leaves the selection completely unchanged.  The saved selection
is untouched and nothing is printed.  The hypotheses `0 ≤ r1`, `0 ≤ c1`
restrict to the selections the program can actually build. -/
theorem c5_find_selector (t : TableRows) (r1 c1 r2 c2 s1 s2 s3 s4 : Int) (str : List Char)
    (h1 : 0 ≤ r1) (h2 : 0 ≤ c1) :
    set_selector ⟨r1, c1, r2, c2, true⟩ ⟨s1, s2, s3, s4, true⟩
        ('[' :: (('f' :: 'i' :: 'n' :: 'd' :: ' ' :: str) ++ [']'])) t =
      (NO_ERROR,
        (match (selCells t ⟨r1, c1, r2, c2, true⟩).find?
            (fun p => string_start_with (contentAt t p.1 p.2) str) with
         | some p => ⟨p.1, p.2, p.1, p.2, true⟩
         | none => ⟨r1, c1, r2, c2, true⟩),
        ⟨s1, s2, s3, s4, true⟩, []) := by
  have hdisp : set_selector ⟨r1, c1, r2, c2, true⟩ ⟨s1, s2, s3, s4, true⟩
      ('[' :: (('f' :: 'i' :: 'n' :: 'd' :: ' ' :: str) ++ [']'])) t =
      (NO_ERROR, (selector_find ⟨r1, c1, r2, c2, true⟩ t str).1,
        ⟨s1, s2, s3, s4, true⟩, (selector_find ⟨r1, c1, r2, c2, true⟩ t str).2) := by
    unfold set_selector
    rw [trim_find_arg]
    simp only [seg_find_arg, rest_find_arg]
    simp [strings_equal]
  rw [hdisp, selector_find_eq]

/-- C5 witness: `[find ba]` on the S5 table shrinks to cell (0,1). -/
theorem c5_find_selector_witness :
    set_selector ⟨0, 0, 1, 1, true⟩ ⟨0, 0, 0, 0, true⟩
        ('[' :: (('f' :: 'i' :: 'n' :: 'd' :: ' ' :: ['b', 'a']) ++ [']']))
        [[['f', 'o', 'o'], ['b', 'a', 'r']], [['b', 'a', 'z'], ['q', 'u', 'x']]] =
      (NO_ERROR, ⟨0, 1, 0, 1, true⟩, ⟨0, 0, 0, 0, true⟩, []) := by
  rw [c5_find_selector
    [[['f', 'o', 'o'], ['b', 'a', 'r']], [['b', 'a', 'z'], ['q', 'u', 'x']]]
    0 0 1 1 0 0 0 0 ['b', 'a'] (by decide) (by decide)]
  decide


/-! ## Claim C6: behavior when `find` / `min` / `max` match nothing -/

theorem minmax_scan_none (t : TableRows) (better : LD → LD → Bool) :
    ∀ (cells : List (Int × Int)) (m : LD) (r c : Int),
      (∀ p ∈ cells, is_string_ldouble (trimQuotesForCmp (contentAt t p.1 p.2)) = false) →
      minmax_scan t better cells m r c false = (m, r, c, false) := by
  intro cells
  induction cells with
  | nil => intro m r c _; rfl
  | cons p ps ih =>
    intro m r c h
    have hp := h p (List.mem_cons_self _ _)
    simp only [minmax_scan, hp, Bool.false_eq_true, if_false]
    exact ih m r c (fun q hq => h q (List.mem_cons_of_mem _ hq))

/-- C6 amended: when `find` matches no cell it leaves the selection
unchanged and emits *no* diagnostic (the function contains no print
statement); when `min` / `max` find no numerically parseable cell they
return `NO_ERROR` (the pipeline continues), leave the selection
unchanged, and emit exactly one warning line on `stdout`. -/
theorem c6_no_match_diagnostics (t : TableRows) (sel : Raw_selector) (str : List Char)
    (hfind : ∀ p ∈ selCells t sel, string_start_with (contentAt t p.1 p.2) str = false)
    (hnum : ∀ p ∈ selCells t sel,
      is_string_ldouble (trimQuotesForCmp (contentAt t p.1 p.2)) = false) :
    selector_find sel t str = (sel, []) ∧
    selector_min sel t = (NO_ERROR, sel,
      [Diag.warnNoMin (sel.lld_ir1 + 1) (sel.lld_ic1 + 1)
        (sel.lld_ir2 + 1) (sel.lld_ic2 + 1)]) ∧
    selector_max sel t = (NO_ERROR, sel,
      [Diag.warnNoMax (sel.lld_ir1 + 1) (sel.lld_ic1 + 1)
        (sel.lld_ir2 + 1) (sel.lld_ic2 + 1)]) := by
  refine ⟨?_, ?_, ?_⟩
  · rw [selector_find_eq]
    have hn : (selCells t sel).find?
        (fun p => string_start_with (contentAt t p.1 p.2) str) = none := by
      rw [List.find?_eq_none]
      intro p hp
      simp [hfind p hp]
    rw [hn]
  · unfold selector_min
    rw [minmax_scan_none t (fun v m => LD.blt v m) (selCells t sel) LDBL_MAX_LD 0 0 hnum]
    rfl
  · unfold selector_max
    rw [minmax_scan_none t (fun v m => LD.blt m v) (selCells t sel)
      (LD.neg LDBL_MAX_LD) 0 0 hnum]
    rfl


/-- C6 witness: a 1×1 table containing `"a"` with `find z` and
`min`/`max`. -/
theorem c6_no_match_diagnostics_witness :
    selector_find ⟨0, 0, 0, 0, true⟩ [[['a']]] ['z'] = (⟨0, 0, 0, 0, true⟩, []) ∧
    selector_min ⟨0, 0, 0, 0, true⟩ [[['a']]] = (NO_ERROR, ⟨0, 0, 0, 0, true⟩,
      [Diag.warnNoMin 1 1 1 1]) ∧
    selector_max ⟨0, 0, 0, 0, true⟩ [[['a']]] = (NO_ERROR, ⟨0, 0, 0, 0, true⟩,
      [Diag.warnNoMax 1 1 1 1]) :=
  c6_no_match_diagnostics [[['a']]] ⟨0, 0, 0, 0, true⟩ ['z'] (by decide) (by decide)

/-- C6 counterexample.  The claim states that a `find` with no matching
cell emits a diagnostic to the standard output stream.  On the 1×1 table
`["a"]` with `find z`, the selection is unchanged and the command
continues, but the emitted-output component is empty: `selector_find`
contains no print statement, so no diagnostic is ever produced. -/
theorem c6_counterexample :
    selector_find ⟨0, 0, 0, 0, true⟩ [[['a']]] ['z'] =
      (⟨0, 0, 0, 0, true⟩, ([] : List Diag)) := rfl

/-! ## Claim C9 support -/

theorem set_getD_self {α : Type} :
    ∀ (l : List α) (n : Nat) (d : α), n < l.length → l.set n (l.getD n d) = l := by
  intro l
  induction l with
  | nil => intro n d h; simp at h
  | cons x xs ih =>
    intro n d h
    cases n with
    | zero => simp
    | succ m =>
      simp only [List.getD_cons_succ, List.set_cons_succ]
      rw [ih m d (by simpa using h)]

theorem getD_set_self {α : Type} :
    ∀ (l : List α) (n : Nat) (v d : α), n < l.length → (l.set n v).getD n d = v := by
  intro l
  induction l with
  | nil => intro n v d h; simp at h
  | cons x xs ih =>
    intro n v d h
    cases n with
    | zero => simp
    | succ m =>
      simp only [List.set_cons_succ, List.getD_cons_succ]
      exact ih m v d (by simpa using h)

theorem getD_length_le {α : Type} :
    ∀ (l : List α) (n : Nat) (d : α), l.length ≤ n → l.getD n d = d := by
  intro l
  induction l with
  | nil => intro n d _; simp
  | cons x xs ih =>
    intro n d h
    cases n with
    | zero => simp at h
    | succ m =>
      simp only [List.getD_cons_succ]
      exact ih m d (by simpa using h)

theorem intRange_single (a : Int) : intRange a a = [a] := by
  unfold intRange
  have h : (a + 1 - a).toNat = 1 := by omega
  rw [h]
  have hr : List.range 1 = [0] := rfl
  rw [hr]
  simp

theorem intRange_empty {a b : Int} (h : b < a) : intRange a b = [] := by
  unfold intRange
  have h0 : (b + 1 - a).toNat = 0 := by omega
  rw [h0]
  simp

theorem rowAt_length {t : TableRows} {i : Int}
    (hrect : ∀ r ∈ t, r.length = ncols0 t) (hi : i.toNat < nrows t) :
    (rowAt t i).length = ncols0 t := by
  unfold rowAt
  unfold nrows at hi
  refine hrect _ ?_
  rw [List.getD_eq_getElem _ _ hi]
  exact List.getElem_mem hi

/-- The single-cell selection `(i, j, i, j)` visits exactly cell `(i, j)`
when it is in bounds. -/
theorem selCells_single (t : TableRows) (i j : Int) (b : Bool)
    (hrect : ∀ r ∈ t, r.length = ncols0 t) (hi : 0 ≤ i) (hj : 0 ≤ j)
    (hir : i < (nrows t : Int)) (hjc : j < (ncols0 t : Int)) :
    selCells t ⟨i, j, i, j, b⟩ = [(i, j)] := by
  unfold selCells selRows selColsInRow
  dsimp only
  have h1 : min i ((nrows t : Int) - 1) = i := by omega
  rw [h1, intRange_single]
  have hlen : (rowAt t i).length = ncols0 t := rowAt_length hrect (by omega)
  simp only [List.flatMap_cons, List.flatMap_nil, List.append_nil]
  rw [hlen]
  have h2 : min j ((ncols0 t : Int) - 1) = j := by omega
  rw [h2, intRange_single]
  rfl

/-- An out-of-bounds single-cell selection visits no cell. -/
theorem selCells_single_oob (t : TableRows) (i j : Int) (b : Bool)
    (hrect : ∀ r ∈ t, r.length = ncols0 t) (hi : 0 ≤ i) (hj : 0 ≤ j)
    (hoob : (nrows t : Int) ≤ i ∨ (ncols0 t : Int) ≤ j) :
    selCells t ⟨i, j, i, j, b⟩ = [] := by
  unfold selCells selRows
  dsimp only
  rcases hoob with h | h
  · rw [intRange_empty (by omega)]
    rfl
  · by_cases hir : i < (nrows t : Int)
    · have h1 : min i ((nrows t : Int) - 1) = i := by omega
      rw [h1, intRange_single]
      unfold selColsInRow
      have hlen : (rowAt t i).length = ncols0 t := rowAt_length hrect (by omega)
      simp only [List.flatMap_cons, List.flatMap_nil, List.append_nil]
      rw [hlen, intRange_empty (by omega)]
      rfl
    · rw [intRange_empty (by omega)]
      rfl

/-- Rewriting a cell with its own content is the identity. -/
theorem updCell_self (t : TableRows) (i j : Int)
    (hrect : ∀ r ∈ t, r.length = ncols0 t)
    (hi : i.toNat < nrows t) (hj : j.toNat < ncols0 t) :
    updCell t i j (contentAt t i j) = t := by
  unfold updCell contentAt
  rw [set_getD_self (rowAt t i) j.toNat [] (by rw [rowAt_length hrect hi]; exact hj)]
  unfold nrows at hi
  exact set_getD_self t i.toNat [] hi

/-! ## Claim C9: `def _N` then `use _N` -/

/-- C9: on a rectangular table, for a single-cell current selection
`(i, j, i, j)` (as `def` requires) that does not change in between,
executing `def _N` and then `use _N` leaves the table exactly as it was:
either the cell is in bounds — then `use` writes back the very content
`def` saved — or it is out of bounds — then `def` leaves the slot alone
and `use` writes to no cell at all. -/
theorem c9_def_use_identity (t : TableRows) (i j : Int) (b : Bool)
    (store : List (Option (List Char))) (N : Nat)
    (hrect : ∀ r ∈ t, r.length = ncols0 t) (hi : 0 ≤ i) (hj : 0 ≤ j) :
    (set_cell_from_temporary_variable t ⟨i, j, i, j, b⟩
      (set_temporary_variable t ⟨i, j, i, j, b⟩ store N).2 N).2 = t := by
  unfold set_temporary_variable
  dsimp only
  by_cases hcond : 0 < nrows t ∧ 0 < ncols0 t ∧ i < (nrows t : Int) ∧ j < (ncols0 t : Int)
  · rw [if_pos hcond]
    obtain ⟨hr0, hc0, hir, hjc⟩ := hcond
    unfold set_cell_from_temporary_variable
    dsimp only
    by_cases hN : N < store.length
    · have hget : (store.set N (some (contentAt t i j))).getD N none =
          some (contentAt t i j) :=
        getD_set_self store N _ none hN
      rw [if_pos ⟨hr0, hc0, by rw [hget]; simp⟩]
      unfold set_value_in_area
      rw [if_neg (by
        push_neg
        refine ⟨by omega, by omega, ?_⟩
        rw [hget]
        simp)]
      rw [hget]
      rw [selCells_single t i j b hrect hi hj hir hjc]
      simp only [List.foldl_cons, List.foldl_nil, Option.getD_some]
      rw [updCell_self t i j hrect (by omega) (by omega)]
    · have hset : store.set N (some (contentAt t i j)) = store :=
        List.set_eq_of_length_le (by omega)
      rw [hset]
      have hnone : store.getD N none = none := getD_length_le store N none (by omega)
      rw [if_neg (fun hc => hc.2.2 hnone)]
  · rw [if_neg hcond]
    unfold set_cell_from_temporary_variable
    dsimp only
    by_cases hguard : 0 < nrows t ∧ 0 < ncols0 t ∧ store.getD N none ≠ none
    · rw [if_pos hguard]
      unfold set_value_in_area
      rw [if_neg (by
        push_neg
        obtain ⟨hr0, hc0, hs⟩ := hguard
        exact ⟨by omega, by omega, fun h => absurd h hs⟩)]
      have hoob : (nrows t : Int) ≤ i ∨ (ncols0 t : Int) ≤ j := by
        obtain ⟨hr0, hc0, _⟩ := hguard
        by_contra hno
        push_neg at hno
        exact hcond ⟨hr0, hc0, hno.1, hno.2⟩
      rw [selCells_single_oob t i j b hrect hi hj hoob]
      rfl
    · rw [if_neg hguard]

/-- C9 witness: `def _0; use _0` on cell (1,1) of the S6 table leaves the
table unchanged. -/
theorem c9_def_use_identity_witness :
    (set_cell_from_temporary_variable [[['7'], ['8']], [['9'], ['0']]] ⟨0, 0, 0, 0, true⟩
      (set_temporary_variable [[['7'], ['8']], [['9'], ['0']]] ⟨0, 0, 0, 0, true⟩
        [none, some ['x']] 0).2 0).2 = [[['7'], ['8']], [['9'], ['0']]] :=
  c9_def_use_identity [[['7'], ['8']], [['9'], ['0']]] 0 0 true [none, some ['x']] 0
    (by decide) (by decide) (by decide)

/-! ## Claim C8 support: decimal digits round-trip through the parser -/

theorem digitChar_isDigit {d : Nat} (h : d < 10) : isDigitB (digitChar d) = true := by
  interval_cases d <;> decide

theorem digitChar_digVal {d : Nat} (h : d < 10) : digVal (digitChar d) = d := by
  interval_cases d <;> decide

theorem isDigit_not_space {c : Char} (h : isDigitB c = true) : isSpaceB c = false := by
  by_contra hs
  rw [Bool.not_eq_false] at hs
  simp only [isSpaceB, Bool.or_eq_true, beq_iff_eq] at hs
  rcases hs with ((((rfl | rfl) | rfl) | rfl) | rfl) | rfl <;> simp [isDigitB] at h

theorem isDigit_ne_minus {c : Char} (h : isDigitB c = true) : c ≠ '-' := by
  rintro rfl
  simp [isDigitB] at h

theorem isDigit_ne_plus {c : Char} (h : isDigitB c = true) : c ≠ '+' := by
  rintro rfl
  simp [isDigitB] at h

theorem takeSign_no_sign {c : Char} (lc : List Char) (h1 : c ≠ '-') (h2 : c ≠ '+') :
    takeSign (c :: lc) = (false, 0, c :: lc) := by
  unfold takeSign
  split
  · next heq => rw [List.cons.injEq] at heq; exact absurd heq.1 h1
  · next heq => rw [List.cons.injEq] at heq; exact absurd heq.1 h2
  · rfl

theorem takeDigitsAcc_all :
    ∀ (l : List Char), (∀ c ∈ l, isDigitB c = true) → ∀ (acc : Nat),
      takeDigitsAcc l acc = (l.foldl (fun a c => a * 10 + digVal c) acc, l.length, []) := by
  intro l
  induction l with
  | nil => intro _ acc; rfl
  | cons c cs ih =>
    intro h acc
    have hc := h c (List.mem_cons_self _ _)
    unfold takeDigitsAcc
    rw [if_pos hc]
    rw [ih (fun x hx => h x (List.mem_cons_of_mem _ hx)) (acc * 10 + digVal c)]
    simp

theorem natToDecAux_digits :
    ∀ (f n : Nat) (c : Char), c ∈ natToDecAux f n → isDigitB c = true := by
  intro f
  induction f with
  | zero => intro n c hc; simp [natToDecAux] at hc
  | succ f ih =>
    intro n c hc
    unfold natToDecAux at hc
    by_cases hn : n = 0
    · rw [if_pos hn] at hc; simp at hc
    · rw [if_neg hn] at hc
      rw [List.mem_append] at hc
      rcases hc with hc | hc
      · exact ih _ c hc
      · rw [List.mem_singleton] at hc
        subst hc
        exact digitChar_isDigit (Nat.mod_lt _ (by norm_num))

theorem natToDec_digits {n : Nat} {c : Char} (hc : c ∈ natToDec n) : isDigitB c = true := by
  unfold natToDec at hc
  by_cases hn : n = 0
  · rw [if_pos hn] at hc
    rw [List.mem_singleton] at hc
    subst hc
    decide
  · rw [if_neg hn] at hc
    exact natToDecAux_digits n n c hc

theorem natToDecAux_val :
    ∀ (f n : Nat), n ≤ f →
      (natToDecAux f n).foldl (fun a c => a * 10 + digVal c) 0 = n := by
  intro f
  induction f with
  | zero =>
    intro n hn
    have : n = 0 := by omega
    subst this
    rfl
  | succ f ih =>
    intro n hn
    unfold natToDecAux
    by_cases hn0 : n = 0
    · rw [if_pos hn0]
      simp [hn0]
    · rw [if_neg hn0]
      rw [List.foldl_append]
      have hdiv : n / 10 ≤ f := by
        have h1 : n / 10 < n := Nat.div_lt_self (by omega) (by norm_num)
        omega
      rw [ih (n / 10) hdiv]
      simp only [List.foldl_cons, List.foldl_nil]
      rw [digitChar_digVal (Nat.mod_lt _ (by norm_num))]
      omega

theorem natToDec_val (n : Nat) :
    (natToDec n).foldl (fun a c => a * 10 + digVal c) 0 = n := by
  unfold natToDec
  by_cases hn : n = 0
  · rw [if_pos hn]; simp [hn, digVal]
  · rw [if_neg hn]; exact natToDecAux_val n n (le_refl n)

theorem natToDec_ne_nil (n : Nat) : natToDec n ≠ [] := by
  unfold natToDec
  by_cases hn : n = 0
  · rw [if_pos hn]; simp
  · rw [if_neg hn]
    match n, hn with
    | m + 1, hm =>
      show (if m + 1 = 0 then [] else
        natToDecAux m ((m + 1) / 10) ++ [digitChar ((m + 1) % 10)]) ≠ []
      rw [if_neg hm]
      simp

/-- `strtold` parses the canonical decimal rendering of a natural number
back to that number, consuming it entirely. -/
theorem strtold_natToDec (n : Nat) :
    strtold (natToDec n) = (⟨(n : Int), 1⟩, (natToDec n).length) := by
  obtain ⟨c, rest, hs⟩ := List.exists_cons_of_ne_nil (natToDec_ne_nil n)
  have hdig : ∀ x ∈ natToDec n, isDigitB x = true := fun x hx => natToDec_digits hx
  have hcdig : isDigitB c = true := hdig c (hs ▸ List.mem_cons_self _ _)
  unfold strtold
  rw [hs]
  rw [List.takeWhile_cons_of_neg (by rw [isDigit_not_space hcdig]; simp)]
  simp only [List.length_nil, List.drop_zero]
  rw [takeSign_no_sign rest (isDigit_ne_minus hcdig) (isDigit_ne_plus hcdig)]
  rw [← hs]
  rw [takeDigitsAcc_all (natToDec n) hdig 0]
  simp only []
  rw [if_neg (by
    simp only [Nat.add_zero]
    intro hlen
    exact natToDec_ne_nil n (List.eq_nil_of_length_eq_zero hlen))]
  rw [natToDec_val n]
  simp [LD.mulPow10]

theorem is_string_ldouble_natToDec (n : Nat) : is_string_ldouble (natToDec n) = true := by
  unfold is_string_ldouble
  rw [strtold_natToDec]
  simp

theorem val_natToDec (n : Nat) : string_to_ldouble_val (natToDec n) = ⟨(n : Int), 1⟩ := by
  unfold string_to_ldouble_val
  rw [strtold_natToDec]

/-! ## Claim C8: `inc _N` -/

/-- C8 counterexample.  The claim states that `inc _N` strictly increases
the stored value of a numeric slot.  For the numeric slot `"1000000.99"`,
`inc` computes 1000001.99 and formats it with `%Lg` (six significant
digits), writing `"1e+06"`; the stored value decreased from 1000000.99 to
1000000. -/
theorem c8_counterexample :
    increase_temporary_variable [some ['1', '0', '0', '0', '0', '0', '0', '.', '9', '9']] 0 =
      (NO_ERROR, [some ['1', 'e', '+', '0', '6']]) ∧
    LD.blt (string_to_ldouble_val ['1', 'e', '+', '0', '6'])
      (string_to_ldouble_val ['1', '0', '0', '0', '0', '0', '0', '.', '9', '9']) = true := by
  constructor
  · rfl
  · rfl

/-- C8 amended: `inc _N` on an empty or non-numeric slot writes exactly
`"1"`; on a numeric slot it parses the value, adds 1.0 and writes it back
(`%li` when the result has no fractional part, `%Lg` — six significant
digits — otherwise); it is a deterministic function of the slot; and on a
slot holding the canonical decimal of a natural number it yields the
canonical decimal of its successor, strictly increasing the stored value.
It is *not* strictly increasing on all numeric slots (see the
counterexample): the six-digit `%Lg` rounding can shrink the stored
value. -/
theorem c8_inc_amended (s : List Char) (n : Nat) (h62 : n + 1 ≤ 2 ^ 62) :
    increase_temporary_variable [none] 0 = (NO_ERROR, [some ['1']]) ∧
    (is_string_ldouble s = false →
      increase_temporary_variable [some s] 0 = (NO_ERROR, [some ['1']])) ∧
    (is_string_ldouble s = true →
      increase_temporary_variable [some s] 0 = (NO_ERROR, [some (
        if is_ldouble_lint (LD.add (string_to_ldouble_val s) LD.one)
        then lint_to_string (LD.truncI (LD.add (string_to_ldouble_val s) LD.one))
        else ldouble_to_string (LD.add (string_to_ldouble_val s) LD.one))])) ∧
    increase_temporary_variable [some (natToDec n)] 0 =
      (NO_ERROR, [some (natToDec (n + 1))]) ∧
    LD.blt (string_to_ldouble_val (natToDec n))
      (string_to_ldouble_val (natToDec (n + 1))) = true := by
  refine ⟨rfl, ?_, ?_, ?_, ?_⟩
  · intro h
    unfold increase_temporary_variable
    simp only [List.getD_cons_zero, h, Bool.false_eq_true, if_false]
    rfl
  · intro h
    unfold increase_temporary_variable
    simp only [List.getD_cons_zero, h, if_true]
    rfl
  · unfold increase_temporary_variable
    simp only [List.getD_cons_zero, is_string_ldouble_natToDec, if_true, val_natToDec]
    have hadd : LD.add ⟨(n : Int), 1⟩ LD.one = ⟨(n : Int) + 1, 1⟩ := by
      simp [LD.add, LD.one]
    rw [hadd]
    have hlint : is_ldouble_lint ⟨(n : Int) + 1, 1⟩ = true := by
      simp [is_ldouble_lint, LD.truncI, Int.tdiv_one]
    rw [if_pos hlint]
    have htr : LD.truncI ⟨(n : Int) + 1, 1⟩ = (n : Int) + 1 := by
      simp [LD.truncI, Int.tdiv_one]
    rw [htr]
    have hpos : ¬ ((n : Int) + 1 < 0) := by omega
    simp only [lint_to_string, hpos, if_false]
    have habs : ((n : Int) + 1).natAbs = n + 1 := by omega
    rw [habs]
    rfl
  · rw [val_natToDec, val_natToDec]
    simp [LD.blt]

/-- C8 witness: the amended theorem at slot `"2.5"` and `n = 41`. -/
theorem c8_inc_amended_witness :
    increase_temporary_variable [none] 0 = (NO_ERROR, [some ['1']]) ∧
    (is_string_ldouble ['2', '.', '5'] = false →
      increase_temporary_variable [some ['2', '.', '5']] 0 = (NO_ERROR, [some ['1']])) ∧
    (is_string_ldouble ['2', '.', '5'] = true →
      increase_temporary_variable [some ['2', '.', '5']] 0 = (NO_ERROR, [some (
        if is_ldouble_lint (LD.add (string_to_ldouble_val ['2', '.', '5']) LD.one)
        then lint_to_string (LD.truncI (LD.add (string_to_ldouble_val ['2', '.', '5']) LD.one))
        else ldouble_to_string (LD.add (string_to_ldouble_val ['2', '.', '5']) LD.one))])) ∧
    increase_temporary_variable [some (natToDec 41)] 0 =
      (NO_ERROR, [some (natToDec (41 + 1))]) ∧
    LD.blt (string_to_ldouble_val (natToDec 41))
      (string_to_ldouble_val (natToDec (41 + 1))) = true :=
  c8_inc_amended ['2', '.', '5'] 41 (by norm_num)

/-! ## Claim C10 support -/

theorem strtold_den_pos (s : List Char) : 0 < (strtold s).1.den := by
  unfold strtold
  dsimp only
  split
  · norm_num
  · split
    · split <;> simp [LD.neg, LD.divPow10, LD.mulPow10] <;> positivity
    · split <;> simp [LD.neg, LD.divPow10, LD.mulPow10] <;> positivity

theorem val_den_pos (s : List Char) : 0 < (string_to_ldouble_val s).den :=
  strtold_den_pos s

theorem toRat_add {a b : LD} (ha : 0 < a.den) (hb : 0 < b.den) :
    (LD.add a b).toRat = a.toRat + b.toRat := by
  unfold LD.add LD.toRat
  dsimp only
  have ha' : ((a.den : ℚ)) ≠ 0 := by positivity
  have hb' : ((b.den : ℚ)) ≠ 0 := by positivity
  field_simp

theorem sum_scan_all_numeric (t : TableRows) :
    ∀ (cells : List (Int × Int)) (acc : LD),
      (∀ p ∈ cells, is_string_ldouble (contentAt t p.1 p.2) = true) →
      sum_scan t cells acc =
        (cells.foldl (fun a p => LD.add a (string_to_ldouble_val (contentAt t p.1 p.2))) acc,
          false) := by
  intro cells
  induction cells with
  | nil => intro acc _; rfl
  | cons p ps ih =>
    intro acc h
    have hp := h p (List.mem_cons_self _ _)
    simp only [sum_scan, hp, if_true, List.foldl_cons]
    exact ih _ (fun q hq => h q (List.mem_cons_of_mem _ hq))

theorem avg_scan_all_numeric (t : TableRows) :
    ∀ (cells : List (Int × Int)) (acc : LD) (k : Nat),
      (∀ p ∈ cells, is_string_ldouble (contentAt t p.1 p.2) = true) →
      avg_scan t cells acc k =
        (cells.foldl (fun a p => LD.add a (string_to_ldouble_val (contentAt t p.1 p.2))) acc,
          k + cells.length, false) := by
  intro cells
  induction cells with
  | nil => intro acc k _; rfl
  | cons p ps ih =>
    intro acc k h
    have hp := h p (List.mem_cons_self _ _)
    simp only [avg_scan, hp, if_true, List.foldl_cons, List.length_cons]
    rw [ih _ (k + 1) (fun q hq => h q (List.mem_cons_of_mem _ hq))]
    have hk : k + 1 + ps.length = k + (ps.length + 1) := by omega
    rw [hk]

theorem foldl_sum_den_pos (t : TableRows) :
    ∀ (cells : List (Int × Int)) (acc : LD), 0 < acc.den →
      0 < (cells.foldl
        (fun a p => LD.add a (string_to_ldouble_val (contentAt t p.1 p.2))) acc).den := by
  intro cells
  induction cells with
  | nil => intro acc h; exact h
  | cons p ps ih =>
    intro acc h
    rw [List.foldl_cons]
    refine ih _ ?_
    unfold LD.add
    dsimp only
    have := val_den_pos (contentAt t p.1 p.2)
    positivity

theorem foldl_sum_toRat (t : TableRows) :
    ∀ (cells : List (Int × Int)) (acc : LD), 0 < acc.den →
      (cells.foldl
          (fun a p => LD.add a (string_to_ldouble_val (contentAt t p.1 p.2))) acc).toRat =
        acc.toRat +
          (cells.map (fun p => (string_to_ldouble_val (contentAt t p.1 p.2)).toRat)).sum := by
  intro cells
  induction cells with
  | nil => intro acc h; simp
  | cons p ps ih =>
    intro acc h
    rw [List.foldl_cons]
    rw [ih (LD.add acc (string_to_ldouble_val (contentAt t p.1 p.2))) (by
      unfold LD.add
      dsimp only
      have := val_den_pos (contentAt t p.1 p.2)
      positivity)]
    rw [toRat_add h (val_den_pos _)]
    simp only [List.map_cons, List.sum_cons]
    ring

theorem sum_map_filter_zero (f : Int × Int → ℚ) (q : Int × Int → Bool) :
    ∀ (cells : List (Int × Int)),
      (∀ p ∈ cells, q p = false → f p = 0) →
      (cells.map f).sum = ((cells.filter q).map f).sum := by
  intro cells
  induction cells with
  | nil => intro _; rfl
  | cons p ps ih =>
    intro h
    rw [List.map_cons, List.sum_cons]
    by_cases hq : q p = true
    · rw [List.filter_cons_of_pos hq, List.map_cons, List.sum_cons,
        ih (fun x hx => h x (List.mem_cons_of_mem _ hx))]
    · rw [List.filter_cons_of_neg (by simpa using hq)]
      rw [h p (List.mem_cons_self _ _) (by simpa using hq)]
      rw [ih (fun x hx => h x (List.mem_cons_of_mem _ hx))]
      ring

/-- The empties-contribute-nothing identity: the accumulated sum over all
scanned cells has the same rational value as the one over the non-empty
scanned cells. -/
theorem selSumLD_filter_empty (t : TableRows) (cells : List (Int × Int)) :
    (selSumLD t cells).toRat =
      (selSumLD t (cells.filter (fun p => !(contentAt t p.1 p.2 == [])))).toRat := by
  unfold selSumLD
  rw [foldl_sum_toRat t cells ⟨0, 1⟩ (by norm_num),
    foldl_sum_toRat t _ ⟨0, 1⟩ (by norm_num)]
  rw [sum_map_filter_zero (fun p => (string_to_ldouble_val (contentAt t p.1 p.2)).toRat)
    (fun p => !(contentAt t p.1 p.2 == [])) cells ?_]
  intro p _ hq
  simp only [Bool.not_eq_false', beq_iff_eq] at hq
  show (string_to_ldouble_val (contentAt t p.1 p.2)).toRat = 0
  rw [hq]
  show LD.toRat ⟨0, 1⟩ = 0
  norm_num [LD.toRat]

/-! ## `%Lg` output never contains the letter N -/

theorem isDigit_ne_N {c : Char} (h : isDigitB c = true) : c ≠ 'N' := by
  rintro rfl
  simp [isDigitB] at h

theorem natToDec_ne_N {n : Nat} {c : Char} (hc : c ∈ natToDec n) : c ≠ 'N' :=
  isDigit_ne_N (natToDec_digits hc)

theorem mem_stripZeros {ds : List Char} {c : Char} (hc : c ∈ stripZeros ds) : c ∈ ds := by
  unfold stripZeros at hc
  rw [List.mem_reverse] at hc
  have := (List.dropWhile_sublist (l := ds.reverse) (p := (· == '0'))).mem hc
  rwa [List.mem_reverse] at this

theorem mem_fmtExp {e : Int} {c : Char} (hc : c ∈ fmtExp e) : c ≠ 'N' := by
  unfold fmtExp at hc
  rcases List.mem_cons.mp hc with rfl | hc
  · decide
  rcases List.mem_cons.mp hc with rfl | hc
  · split <;> decide
  · by_cases hlt : e.natAbs < 10
    · rw [if_pos hlt] at hc
      rcases List.mem_cons.mp hc with rfl | hc
      · decide
      · exact natToDec_ne_N hc
    · rw [if_neg hlt] at hc
      exact natToDec_ne_N hc

theorem mem_fmtGPos {M e : Int} {c : Char} (hc : c ∈ fmtGPos M e) : c ≠ 'N' := by
  unfold fmtGPos at hc
  by_cases hsci : e < -4 || 6 ≤ e
  · rw [if_pos hsci] at hc
    revert hc
    cases hd : natToDec M.toNat with
    | nil => intro hc; exact mem_fmtExp hc
    | cons d rest =>
      intro hc
      rw [List.mem_append] at hc
      rcases hc with hc | hc
      · have hdN : d ∈ natToDec M.toNat := by rw [hd]; exact List.mem_cons_self _ _
        by_cases hfp : stripZeros rest = []
        · rw [if_pos hfp] at hc
          rw [List.mem_singleton] at hc
          subst hc
          exact natToDec_ne_N hdN
        · rw [if_neg hfp] at hc
          rcases List.mem_cons.mp hc with rfl | hc
          · exact natToDec_ne_N hdN
          rcases List.mem_cons.mp hc with rfl | hc
          · decide
          · refine natToDec_ne_N (n := M.toNat) ?_
            rw [hd]
            exact List.mem_cons_of_mem _ (mem_stripZeros hc)
      · exact mem_fmtExp hc
  · rw [if_neg hsci] at hc
    by_cases hnn : (0 : Int) ≤ e
    · rw [if_pos hnn] at hc
      by_cases hfp : stripZeros ((natToDec M.toNat).drop (e.toNat + 1)) = []
      · rw [if_pos hfp] at hc
        exact natToDec_ne_N (List.mem_of_mem_take hc)
      · rw [if_neg hfp] at hc
        rw [List.mem_append] at hc
        rcases hc with hc | hc
        · exact natToDec_ne_N (List.mem_of_mem_take hc)
        rcases List.mem_cons.mp hc with rfl | hc
        · decide
        · exact natToDec_ne_N (List.mem_of_mem_drop (mem_stripZeros hc))
    · rw [if_neg hnn] at hc
      rcases List.mem_cons.mp hc with rfl | hc
      · decide
      rcases List.mem_cons.mp hc with rfl | hc
      · decide
      rw [List.mem_append] at hc
      rcases hc with hc | hc
      · have := List.eq_of_mem_replicate hc
        subst this
        decide
      · exact natToDec_ne_N (mem_stripZeros hc)

theorem ldouble_to_string_ne_NaN (v : LD) : ldouble_to_string v ≠ ['N', 'a', 'N'] := by
  intro h
  have hN : 'N' ∈ ldouble_to_string v := by rw [h]; exact List.mem_cons_self _ _
  unfold ldouble_to_string at hN
  by_cases h0 : v.num = 0
  · rw [if_pos h0] at hN
    simp at hN
  · rw [if_neg h0] at hN
    by_cases hneg : v.num < 0
    · rw [if_pos hneg] at hN
      rcases List.mem_cons.mp hN with he | hN
      · exact absurd he.symm (by decide)
      · exact mem_fmtGPos hN rfl
    · rw [if_neg hneg] at hN
      exact mem_fmtGPos hN rfl


/-! ## Claim C10: `sum` / `avg` treat empty cells as numeric 0 -/

/-- C10: the numeric-parse test accepts the empty string (value 0), so in
a selection whose scanned cells all parse (some of them empty), `sum`
writes the formatted accumulated total — never the literal `NaN`, whose
spelling cannot even be produced by `%Lg` — the empty cells contribute 0
to that total, and `avg` divides by the count of *all* scanned numeric
cells, the empty ones included. -/
theorem c10_sum_avg_empty_cells (t : TableRows) (sel : Raw_selector) (r c : Int)
    (hb : 0 ≤ r ∧ r ≤ (nrows t : Int) - 1 ∧ 0 ≤ c ∧ c ≤ (ncols0 t : Int) - 1)
    (hnum : ∀ p ∈ selCells t sel, is_string_ldouble (contentAt t p.1 p.2) = true)
    (hempty : ∃ p ∈ selCells t sel, contentAt t p.1 p.2 = []) :
    is_string_ldouble [] = true ∧
    string_to_ldouble_val [] = ⟨0, 1⟩ ∧
    sum_cells t sel r c =
      (NO_ERROR, updCell t r c (ldouble_to_string (selSumLD t (selCells t sel)))) ∧
    (selSumLD t (selCells t sel)).toRat =
      (selSumLD t ((selCells t sel).filter (fun p => !(contentAt t p.1 p.2 == [])))).toRat ∧
    ldouble_to_string (selSumLD t (selCells t sel)) ≠ ['N', 'a', 'N'] ∧
    avg_cells t sel r c =
      (NO_ERROR, updCell t r c (ldouble_to_string
        (LD.divNat (selSumLD t (selCells t sel)) (selCells t sel).length))) := by
  obtain ⟨hb1, hb2, hb3, hb4⟩ := hb
  refine ⟨rfl, rfl, ?_, selSumLD_filter_empty t _, ldouble_to_string_ne_NaN _, ?_⟩
  · unfold sum_cells
    rw [if_neg (by omega)]
    rw [sum_scan_all_numeric t (selCells t sel) ⟨0, 1⟩ hnum]
    rfl
  · unfold avg_cells
    rw [if_neg (by omega)]
    rw [avg_scan_all_numeric t (selCells t sel) ⟨0, 1⟩ 0 hnum]
    dsimp only
    rw [Nat.zero_add]
    rfl

/-- C10 witness: whole-table selection over `[["1", ""], ["2", "3"]]`,
output cell (0,0); the cell (0,1) is empty. -/
theorem c10_sum_avg_empty_cells_witness :
    is_string_ldouble [] = true ∧
    string_to_ldouble_val [] = ⟨0, 1⟩ ∧
    sum_cells [[['1'], []], [['2'], ['3']]] ⟨0, 0, 1, 1, true⟩ 0 0 =
      (NO_ERROR, updCell [[['1'], []], [['2'], ['3']]] 0 0 (ldouble_to_string
        (selSumLD [[['1'], []], [['2'], ['3']]]
          (selCells [[['1'], []], [['2'], ['3']]] ⟨0, 0, 1, 1, true⟩)))) ∧
    (selSumLD [[['1'], []], [['2'], ['3']]]
        (selCells [[['1'], []], [['2'], ['3']]] ⟨0, 0, 1, 1, true⟩)).toRat =
      (selSumLD [[['1'], []], [['2'], ['3']]]
        ((selCells [[['1'], []], [['2'], ['3']]] ⟨0, 0, 1, 1, true⟩).filter
          (fun p => !(contentAt [[['1'], []], [['2'], ['3']]] p.1 p.2 == [])))).toRat ∧
    ldouble_to_string (selSumLD [[['1'], []], [['2'], ['3']]]
        (selCells [[['1'], []], [['2'], ['3']]] ⟨0, 0, 1, 1, true⟩)) ≠ ['N', 'a', 'N'] ∧
    avg_cells [[['1'], []], [['2'], ['3']]] ⟨0, 0, 1, 1, true⟩ 0 0 =
      (NO_ERROR, updCell [[['1'], []], [['2'], ['3']]] 0 0 (ldouble_to_string
        (LD.divNat (selSumLD [[['1'], []], [['2'], ['3']]]
            (selCells [[['1'], []], [['2'], ['3']]] ⟨0, 0, 1, 1, true⟩))
          (selCells [[['1'], []], [['2'], ['3']]] ⟨0, 0, 1, 1, true⟩).length))) :=
  c10_sum_avg_empty_cells [[['1'], []], [['2'], ['3']]] ⟨0, 0, 1, 1, true⟩ 0 0
    (by refine ⟨by decide, by decide, by decide, by decide⟩)
    (by decide) (by decide)


/-! ## Claim C1 support -/

/-- Splitting a line at its counted delimiter positions and writing the
cells back with the delimiter reproduces the line byte-for-byte. -/
theorem joinCells_create_row (d : Char) (l : List Char) :
    joinCells d (create_row_cells d l) = l := by
  unfold create_row_cells count_char get_substring_seg
  rw [sliceSegs_eq_segsOf (countedPositions l d false) l
    (countedPositions_pairwise l d false)
    (fun p hp => (countedPositions_mem hp).1)]
  exact joinCells_segsOf (countedPositions l d false) l
    (countedPositions_pairwise l d false)
    (fun p hp => countedPositions_mem hp)

theorem fileLines_ne_nil {s : List Char} (h : s ≠ []) : fileLines s ≠ [] := by
  match s, h with
  | c :: s, _ =>
    unfold fileLines
    by_cases hc : c = '\n'
    · rw [if_pos hc]; simp
    · rw [if_neg hc]
      cases fileLines s <;> simp

theorem mem_fileLines_chars :
    ∀ (s : List Char) (l : List Char), l ∈ fileLines s → ∀ c ∈ l, c ∈ s := by
  intro s
  induction s with
  | nil => intro l hl; simp [fileLines] at hl
  | cons x s ih =>
    intro l hl c hc
    unfold fileLines at hl
    by_cases hx : x = '\n'
    · rw [if_pos hx] at hl
      rcases List.mem_cons.mp hl with rfl | hl
      · simp at hc
      · exact List.mem_cons_of_mem _ (ih l hl c hc)
    · rw [if_neg hx] at hl
      cases hfs : fileLines s with
      | nil =>
        rw [hfs] at hl
        rw [List.mem_singleton] at hl
        subst hl
        rw [List.mem_singleton] at hc
        subst hc
        exact List.mem_cons_self _ _
      | cons l0 ls =>
        rw [hfs] at hl
        rcases List.mem_cons.mp hl with rfl | hl
        · rcases List.mem_cons.mp hc with rfl | hc
          · exact List.mem_cons_self _ _
          · exact List.mem_cons_of_mem _
              (ih l0 (by rw [hfs]; exact List.mem_cons_self _ _) c hc)
        · exact List.mem_cons_of_mem _
            (ih l (by rw [hfs]; exact List.mem_cons_of_mem _ hl) c hc)

theorem fileLines_no_newline :
    ∀ (s : List Char) (l : List Char), l ∈ fileLines s → '\n' ∉ l := by
  intro s
  induction s with
  | nil => intro l hl; simp [fileLines] at hl
  | cons x s ih =>
    intro l hl
    unfold fileLines at hl
    by_cases hx : x = '\n'
    · rw [if_pos hx] at hl
      rcases List.mem_cons.mp hl with rfl | hl
      · simp
      · exact ih l hl
    · rw [if_neg hx] at hl
      cases hfs : fileLines s with
      | nil =>
        rw [hfs] at hl
        rw [List.mem_singleton] at hl
        subst hl
        intro hmem
        rw [List.mem_singleton] at hmem
        exact hx hmem.symm
      | cons l0 ls =>
        rw [hfs] at hl
        rcases List.mem_cons.mp hl with rfl | hl
        · intro hmem
          rcases List.mem_cons.mp hmem with hh | hh
          · exact hx hh.symm
          · exact ih l0 (by rw [hfs]; exact List.mem_cons_self _ _) hh
        · exact ih l (by rw [hfs]; exact List.mem_cons_of_mem _ hl)

/-- A file that is empty or ends in a newline is exactly its lines, each
terminated by `'\n'` — the shape `save_table` produces. -/
theorem fileLines_rebuild :
    ∀ (s : List Char), (s = [] ∨ s.getLast? = some '\n') →
      (fileLines s).foldr (fun l acc => l ++ '\n' :: acc) [] = s := by
  intro s
  induction s with
  | nil => intro _; rfl
  | cons x s ih =>
    intro h
    rcases h with h | h
    · simp at h
    · unfold fileLines
      by_cases hx : x = '\n'
      · rw [if_pos hx]
        subst hx
        simp only [List.foldr_cons, List.nil_append]
        congr 1
        cases s with
        | nil => rfl
        | cons y ys =>
          refine ih (Or.inr ?_)
          rw [List.getLast?_cons_cons] at h
          exact h
      · rw [if_neg hx]
        have hs_ne : s ≠ [] := by
          intro h0
          subst h0
          simp only [List.getLast?_singleton, Option.some.injEq] at h
          exact hx h
        have hlast : s.getLast? = some '\n' := by
          match s, hs_ne with
          | y :: ys, _ =>
            rw [List.getLast?_cons_cons] at h
            exact h
        have hrec := ih (Or.inr hlast)
        cases hfs : fileLines s with
        | nil => exact absurd hfs (fileLines_ne_nil hs_ne)
        | cons l0 ls =>
          rw [hfs] at hrec
          simp only [List.foldr_cons] at hrec ⊢
          rw [List.cons_append]
          rw [hrec]

theorem takeWhile_all {p : Char → Bool} :
    ∀ (l : List Char), (∀ c ∈ l, p c = true) → l.takeWhile p = l := by
  intro l
  induction l with
  | nil => intro _; rfl
  | cons c cs ih =>
    intro h
    rw [List.takeWhile_cons_of_pos (h c (List.mem_cons_self _ _))]
    rw [ih (fun x hx => h x (List.mem_cons_of_mem _ hx))]

theorem mapM_ok_forall {α β : Type} (g : α → Except Int β) :
    ∀ (L : List α) (R : List β), L.mapM g = .ok R →
      List.Forall₂ (fun x y => g x = .ok y) L R := by
  intro L
  induction L with
  | nil =>
    intro R h
    rw [List.mapM_nil] at h
    cases h
    exact List.Forall₂.nil
  | cons x xs ih =>
    intro R h
    rw [List.mapM_cons] at h
    cases hg : g x with
    | error e =>
      rw [hg] at h
      simp only [bind, Except.bind] at h
      cases h
    | ok y =>
      rw [hg] at h
      simp only [bind, Except.bind] at h
      cases hm : xs.mapM g with
      | error e =>
        rw [hm] at h
        simp only [bind, Except.bind] at h
        cases h
      | ok ys =>
        rw [hm] at h
        simp only [bind, Except.bind, pure, Except.pure] at h
        cases h
        exact List.Forall₂.cons hg (ih ys hm)

theorem forall2_eq_map {α β : Type} (r : α → β → Prop) (g : α → β)
    (hr : ∀ x y, r x y → y = g x) :
    ∀ {L : List α} {R : List β}, List.Forall₂ r L R → R = L.map g := by
  intro L R hfa
  induction hfa with
  | nil => rfl
  | cons hxy hrest ihh =>
    rw [List.map_cons]
    rw [hr _ _ hxy, ihh]

/-- Inversion of a successful `load_table`: the rows are exactly the
per-line cell splits. -/
theorem load_table_ok {delims f : List Char} {rows : TableRows}
    (h : load_table delims f = .ok rows) :
    rows = (fileLines f).map (fun l =>
      create_row_cells (delims.headD ' ') (normalize_delims (rm_newline_chars l) delims)) := by
  unfold load_table at h
  have hfa := mapM_ok_forall _ (fileLines f) rows h
  refine forall2_eq_map _ _ ?_ hfa
  intro l row hxy
  unfold create_row_from_data at hxy
  by_cases hseg : get_substring_seg
      (normalize_delims (rm_newline_chars l) delims) (delims.headD ' ') 0 false = []
  · rw [if_pos hseg] at hxy
    cases hxy
  · rw [if_neg hseg] at hxy
    cases hxy
    rfl

theorem foldr_append_congr (J : List Char → List Char) :
    ∀ (ls : List (List Char)), (∀ l ∈ ls, J l = l) →
      ls.foldr (fun l acc => J l ++ '\n' :: acc) [] =
        ls.foldr (fun l acc => l ++ '\n' :: acc) [] := by
  intro ls
  induction ls with
  | nil => intro _; rfl
  | cons l ls ih =>
    intro h
    simp only [List.foldr_cons]
    rw [h l (List.mem_cons_self _ _), ih (fun x hx => h x (List.mem_cons_of_mem _ hx))]

/-! ## Claim C1: the load/save round trip -/

/-- C1 counterexample.  The claim states that for every delimiter set and
every input, loading and saving with no commands reproduces the input
byte-for-byte (modulo line-ending normalization).  With the single
delimiter `,` and input `"a,b\nc\n"`, the shape normalization executed by
`main` between `load_table` and `save_table` pads the short second row,
so the output is `"a,b\nc,\n"` ≠ the input. -/
theorem c1_counterexample :
    (load_table [','] ('a' :: ',' :: 'b' :: '\n' :: 'c' :: '\n' :: [])).map
        (fun rows => save_table ',' (normalize_number_of_cols rows)) =
      .ok ('a' :: ',' :: 'b' :: '\n' :: 'c' :: ',' :: '\n' :: []) ∧
    ('a' :: ',' :: 'b' :: '\n' :: 'c' :: ',' :: '\n' :: []) ≠
      ('a' :: ',' :: 'b' :: '\n' :: 'c' :: '\n' :: []) := by
  constructor
  · rfl
  · decide

/-- C1 amended: the round trip is byte-exact on the inputs it can be:
every line `'\n'`-terminated, no carriage returns (and no NUL bytes — the
embedding of C strings assumes that), the table already in normalized
shape (equal row lengths, no trailing all-empty column), and no secondary
delimiter occurrence that delimiter normalization would rewrite; the load
must succeed (it fails on empty lines).  Under these hypotheses
`save_table` reproduces the input file exactly. -/
theorem c1_roundtrip_amended (delims f : List Char) (rows : TableRows)
    (hnul : Char.ofNat 0 ∉ f) (hcr : '\r' ∉ f)
    (hnl : f = [] ∨ f.getLast? = some '\n')
    (hload : load_table delims f = .ok rows)
    (hnorm : normalize_number_of_cols rows = rows)
    (hdelims : ∀ l ∈ fileLines f, normalize_delims l delims = l) :
    save_table (delims.headD ' ') (normalize_number_of_cols rows) = f := by
  have hpt : ∀ l ∈ fileLines f,
      (fun l => joinCells (delims.headD ' ')
        (create_row_cells (delims.headD ' ')
          (normalize_delims (rm_newline_chars l) delims))) l = l := by
    intro l hl
    show joinCells (delims.headD ' ')
      (create_row_cells (delims.headD ' ')
        (normalize_delims (rm_newline_chars l) delims)) = l
    have hrm : rm_newline_chars l = l := by
      unfold rm_newline_chars
      refine takeWhile_all l ?_
      intro c hc
      have hnn : c ≠ '\n' := fun hcn => fileLines_no_newline f l hl (hcn ▸ hc)
      have hnr : c ≠ '\r' := fun hcr2 => hcr (hcr2 ▸ mem_fileLines_chars f l hl c hc)
      simp [hnn, hnr]
    rw [hrm, hdelims l hl]
    exact joinCells_create_row _ l
  rw [hnorm, load_table_ok hload]
  unfold save_table
  rw [List.foldr_map]
  rw [foldr_append_congr
    (fun l => joinCells (delims.headD ' ')
      (create_row_cells (delims.headD ' ') (normalize_delims (rm_newline_chars l) delims)))
    (fileLines f) hpt]
  exact fileLines_rebuild f hnl

/-- C1 witness: the amended theorem on the already-normalized input
`"a,b\nc,d\n"` with delimiter `,`. -/
theorem c1_roundtrip_amended_witness :
    save_table (([','] : List Char).headD ' ')
        (normalize_number_of_cols [[['a'], ['b']], [['c'], ['d']]]) =
      ('a' :: ',' :: 'b' :: '\n' :: 'c' :: ',' :: 'd' :: '\n' :: []) :=
  c1_roundtrip_amended [','] ('a' :: ',' :: 'b' :: '\n' :: 'c' :: ',' :: 'd' :: '\n' :: [])
    [[['a'], ['b']], [['c'], ['d']]]
    (by decide) (by decide) (by decide) (by rfl) (by rfl) (by decide)

end Sps
